import Mathlib

/-!
Verification development for the LDFrienT repository (lattice density
functional theory).  The Python sources embedded here are
`ldft_classes_v2/ldft_model.py` (class `LdftModel`: the Picard iteration
engine, the checkpoint policy, the boundary-aware roll operator and the
thermodynamic potentials) and `code/generator.py` (the bisection search
`search_trans`).

Modelling conventions:
 * numpy float arithmetic is idealised as exact arithmetic over `ℝ`
   (over `ℚ` for the purely rational bookkeeping of checkpoints and of
   the bisection search);
 * a float NaN is modelled by `Option ℝ` with `none` playing the role of
   NaN: `np.exp` and subtraction propagate `none`, and
   `np.any(np.isnan _)` becomes `List.any _ Option.isNone`;
 * a numpy array is modelled as a `List ℝ` (flattened lattice) for the
   iteration engine, whose formulas are pointwise, and as a function
   `((i : Fin 3) → Fin (L i)) → α` for the shape-aware roll operator;
 * in-place mutation of the `self._*` attributes is modelled by explicit
   state passing on the structure `LdftState`;
 * the model specific functional `cal_mu_ex` (an abstract method of
   `LdftModel`) is a parameter `muExF`, and `cal_F` (also abstract) is a
   parameter `F`.
-/

/-! ### Basic list helpers (numpy reductions) -/

/-- `np.mean` of a flattened array: sum divided by the number of entries. -/
noncomputable def listMean (l : List ℝ) : ℝ := l.sum / l.length

/-! ### The data model of `LdftModel` -/

/-- The values of the `bound_cond` argument of `LdftModel.__init__`:
`'periodic'`, `'11_if'`, `'110_if'`, `'111_if'`. -/
inductive BoundCond where
  | periodic : BoundCond
  | if11 : BoundCond
  | if110 : BoundCond
  | if111 : BoundCond
deriving DecidableEq, Repr

/-- The mutable per-instance state of an `LdftModel` (the `self._*`
attributes).  `mu` and `dens` hold the per species chemical potential and
average density (in Python these entries may still be `None` before first
use; the states the claims quantify over have them set).  `r` is the list
of per species density profiles, each flattened to a `List ℝ`. -/
structure LdftState where
  size : List ℕ
  mu_fix : List Bool
  mu : List ℝ
  dens : List ℝ
  v_ext : List (List ℝ)
  r : List (List ℝ)
  r_hist : List (List (List ℝ))
  it_hist : List ℕ
  err_hist : List (List ℝ)
  it_counter : ℕ
  bound_cond : BoundCond

/-! ### Thermodynamic potentials (`cal_Om`, `cal_semi_Om`)

`cal_F` is an abstract method of `LdftModel`; it enters as the value `F`. -/

/-- `cal_Om`: `Om = cal_F(); for i: Om -= mu[i]*np.sum(r[i])`. -/
noncomputable def cal_Om (s : LdftState) (F : ℝ) : ℝ :=
  (List.range s.mu_fix.length).foldl
    (fun Om i => Om - s.mu.getD i 0 * (s.r.getD i []).sum) F

/-- `cal_semi_Om`:
`semi_Om = cal_F(); for i: semi_Om -= mu[i]*np.sum(r[i]) if mu_fix[i] else 0`. -/
noncomputable def cal_semi_Om (s : LdftState) (F : ℝ) : ℝ :=
  (List.range s.mu_fix.length).foldl
    (fun semi_Om i =>
      semi_Om - (if s.mu_fix.getD i false then s.mu.getD i 0 * (s.r.getD i []).sum else 0)) F

/-! ### One Picard update (`_make_picard_update`)

The Python method computes
`temp = [np.exp(mu_ex[i] - v_ext[i]) for i in range(len(mu_fix))]`,
then loops over the species: on a NaN in `temp_i` it prints
`'divergent!!!'` and returns `None` (the partial mutations of `_dens`
and `_mu` made for earlier species stay); otherwise it updates `_dens[i]`
(grand canonical) or `_mu[i]` (canonical) and collects the candidate
profile `r_new[i]`.  After the loop it forms the error vector, mixes the
field with parameter `alpha`, stores it in `_r` and increments
`_it_counter`. -/

/-- The exception that surfaces to the caller of `make_picard_iteration`.
`typeError` models Python's `TypeError` raised by the tuple unpacking
`r, error = self._make_picard_update(alpha)` when the update returned
`None`.  `divergenceError` models the `DivergenceError` the spec speaks
about; no such class exists in the source and the embedding never
produces this value, it exists only so that statements about it can be
written down. -/
inductive PyExc where
  | typeError : PyExc
  | divergenceError : PyExc
deriving DecidableEq, Repr

/-- `temp = [np.exp(mu_ex[i]-self._v_ext[i]) for i in range(len(self._mu_fix))]`,
with `none` (NaN) propagated through subtraction and `np.exp`. -/
noncomputable def temp_of (mu_ex : List (List (Option ℝ))) (s : LdftState) :
    List (List (Option ℝ)) :=
  (List.range s.mu_fix.length).map (fun i =>
    ((mu_ex.getD i []).zip (s.v_ext.getD i [])).map
      (fun p => Option.map Real.exp (Option.map (fun x => x - p.2) p.1)))

/-- The body of the species loop of `_make_picard_update` for one species
`i` whose `temp_i` is NaN-free (`t` is `temp_i` with the `some`s
stripped): either the grand canonical branch (`mu_fix[i]` true), which
appends `r = temp_i*np.exp(mu[i])` and sets `dens[i] = np.mean(r)`, or
the canonical branch, which computes `z = dens[i]/(np.sum(temp_i)/V)`,
appends `temp_i*z` and sets `mu[i] = np.log(z)`. -/
noncomputable def speciesStep (V : ℕ) (s : LdftState) (i : ℕ) (t : List ℝ) :
    LdftState × List ℝ :=
  if s.mu_fix.getD i false then
    let r := t.map (fun x => x * Real.exp (s.mu.getD i 0))
    ({s with dens := s.dens.set i (listMean r)}, r)
  else
    let temp_dens := t.sum / (V : ℝ)
    let z := s.dens.getD i 0 / temp_dens
    ({s with mu := s.mu.set i (Real.log z)}, t.map (fun x => x * z))

/-- The `for i,temp_i in enumerate(temp)` loop of `_make_picard_update`:
first NaN check, then `speciesStep`; `none` in the second component means
the Python method returned `None` (state keeps the mutations made so
far). -/
noncomputable def speciesLoop (V : ℕ) :
    LdftState → List (List (Option ℝ)) → ℕ → List (List ℝ) →
    LdftState × Option (List (List ℝ))
  | s, [], _, acc => (s, some acc)
  | s, temp_i :: rest, i, acc =>
    if temp_i.any Option.isNone then (s, none)
    else
      let p := speciesStep V s i (temp_i.map (fun o => o.getD 0))
      speciesLoop V p.1 rest (i + 1) (acc ++ [p.2])

/-- `_make_picard_update(alpha)`.  The first component is the state of
`self` after the call; the second is the returned value: `none` models
the bare `return` on divergence, `some (r, error)` the normal return. -/
noncomputable def make_picard_update (muExF : LdftState → List (List (Option ℝ)))
    (alpha : ℝ) (s : LdftState) :
    LdftState × Option (List (List ℝ) × List ℝ) :=
  let temp := temp_of (muExF s) s
  let V := s.size.prod
  match speciesLoop V s temp 0 [] with
  | (s1, none) => (s1, none)
  | (s1, some r_new) =>
    let error := (List.range r_new.length).map (fun i =>
      (((r_new.getD i []).zip (s.r.getD i [])).map (fun p => (p.1 - p.2) ^ 2)).sum)
    let r := (List.range r_new.length).map (fun i =>
      ((r_new.getD i []).zip (s.r.getD i [])).map
        (fun p => alpha * p.1 + (1 - alpha) * p.2))
    ({s1 with r := r, it_counter := s1.it_counter + 1}, some (r, error))

/-! ### Checkpoints and history (`_set_new_checkp`, `_append_hist`) -/

/-- The `checkp_method` parameter: an `int` (equidistant checkpoints),
`'exp#'` (here with a natural exponent `#`) or `'dec#'` with
`# = float(checkp_method[3:])`. -/
inductive CheckpMethod where
  | int : ℤ → CheckpMethod
  | exp : ℕ → CheckpMethod
  | dec : ℚ → CheckpMethod

/-- `_set_new_checkp(checkp_method)`.  The returned checkpoint is a `ℚ`
because the `dec` branch computes the Python float
`it_hist[-1] + parm*10**np.floor(np.log10(it_hist[-1]))` (with exponent
`1` when `it_hist[-1] == 0`); `Nat.log 10` is `floor(log10 _)` on
positive naturals. -/
def set_new_checkp (s : LdftState) (checkp_method : CheckpMethod) : ℚ :=
  match checkp_method with
  | .int k => (s.it_hist.getLastD 0 : ℚ) + k
  | .exp p =>
    let c : ℕ := (s.it_hist.getLastD 0) ^ p
    if c = s.it_hist.getLastD 0 then (c : ℚ) + 1 else (c : ℚ)
  | .dec parm =>
    let last := s.it_hist.getLastD 0
    let e : ℕ := if last ≠ 0 then Nat.log 10 last else 1
    (last : ℚ) + parm * 10 ^ e

/-- `_append_hist`: append `_r` to `_r_hist` and `_it_counter` to `_it_hist`. -/
def append_hist (s : LdftState) : LdftState :=
  {s with r_hist := s.r_hist ++ [s.r], it_hist := s.it_hist ++ [s.it_counter]}

/-! ### The iteration driver (`make_picard_iteration`) -/

section

attribute [local instance] Classical.propDecidable

/-- The `for i in np.arange(it_steps)` loop of `make_picard_iteration`:
run one update (a `None` return makes the unpacking raise `TypeError`,
which aborts everything after it), append the error to `_err_hist`,
snapshot and recompute the checkpoint when `_it_counter - checkp == 0`,
and break early when every species error is below `min_err`
(`min_err != None and all(np.array(error) < min_err)`). -/
noncomputable def picard_iter_loop (muExF : LdftState → List (List (Option ℝ)))
    (alpha : ℝ) (checkp_method : CheckpMethod) (min_err : Option ℝ) :
    ℕ → ℚ → LdftState → LdftState × Option PyExc
  | 0, _, s => (s, none)
  | n + 1, checkp, s =>
    match make_picard_update muExF alpha s with
    | (sE, none) => (sE, some .typeError)
    | (s1, some (_, error)) =>
      let s2 := {s1 with err_hist := s1.err_hist ++ [error]}
      let s3 := if (s2.it_counter : ℚ) - checkp = 0 then append_hist s2 else s2
      let checkp2 := if (s2.it_counter : ℚ) - checkp = 0
        then set_new_checkp s3 checkp_method else checkp
      match min_err with
      | none => picard_iter_loop muExF alpha checkp_method none n checkp2 s3
      | some me =>
        if ∀ e ∈ error, e < me then (s3, none)
        else picard_iter_loop muExF alpha checkp_method (some me) n checkp2 s3

end

/-- `make_picard_iteration(alpha, it_steps, checkp_method, min_err)`:
compute the first checkpoint, run the loop, and (unless an exception is
propagating) force a final `_append_hist` when `_it_counter` is not the
last entry of `_it_hist`. -/
noncomputable def make_picard_iteration (muExF : LdftState → List (List (Option ℝ)))
    (alpha : ℝ) (it_steps : ℕ) (checkp_method : CheckpMethod) (min_err : Option ℝ)
    (s : LdftState) : LdftState × Option PyExc :=
  match picard_iter_loop muExF alpha checkp_method min_err it_steps
      (set_new_checkp s checkp_method) s with
  | (s1, some e) => (s1, some e)
  | (s1, none) =>
    (if s1.it_counter = s1.it_hist.getLastD 0 then s1 else append_hist s1, none)

/-! ### The boundary-aware roll operator
(`_tilted_roll_3d`, `_tilted_roll`, `_boundary_roll`)

A 3d numpy array of shape `(L 0, L 1, L 2)` is the function space
`Arr α L`; `np.roll(a, steps, axis)` reads, at index `i` along `axis`,
the entry at `(i - steps) mod (L axis)`.  The slab
`array[-steps:l,...]` (for `steps > 0`) resp. `array[0:-steps,...]`
(otherwise) is the index set `inPad steps (L axis) i`; Python slices
clamp out-of-range bounds, which the two inequalities reproduce.  The
code branches on `roll_axis == 0/1/2` with three syntactically identical
bodies; here that is the single body parametrised by `roll_axis : Fin 3`.
`_tilted_roll_3d` requires `shift_axis != roll_axis` (its docstring);
all call sites in `_boundary_roll` satisfy this. -/

/-- A 3d array of shape `L`. -/
def Arr (α : Type) (L : Fin 3 → ℕ) : Type := ((i : Fin 3) → Fin (L i)) → α

/-- A 2d array of shape `M`. -/
def Arr2 (α : Type) (M : Fin 2 → ℕ) : Type := ((i : Fin 2) → Fin (M i)) → α

/-- The index along a rolled axis: `np.roll(a, steps, axis)` places at
position `i` the entry of position `(i - steps) mod n`. -/
def idxRoll (steps : ℤ) {n : ℕ} (i : Fin n) : Fin n :=
  ⟨(((i : ℕ) : ℤ) - steps % (n : ℤ) + n).toNat % n, by
    have hn : 0 < n := i.pos
    exact Nat.mod_lt _ hn⟩

/-- membership of index `i` (along the roll axis of length `len`) in the
padding slab `array[-steps:len]` (for `0 < steps`) resp. `array[0:-steps]`. -/
def inPad (steps : ℤ) (len : ℕ) (i : ℤ) : Bool :=
  if 0 < steps then decide ((len : ℤ) - steps ≤ i) else decide (i < -steps)

/-- `np.roll(a, steps, axis)` for a 3d array. -/
def roll3 {α : Type} {L : Fin 3 → ℕ} (steps : ℤ) (axis : Fin 3) (a : Arr α L) :
    Arr α L :=
  fun v => a (Function.update v axis (idxRoll steps (v axis)))

/-- `np.roll(a, steps, axis)` for a 2d array. -/
def roll2 {α : Type} {M : Fin 2 → ℕ} (steps : ℤ) (axis : Fin 2) (a : Arr2 α M) :
    Arr2 α M :=
  fun v => a (Function.update v axis (idxRoll steps (v axis)))

/-- `_tilted_roll_3d(array, steps, roll_axis, shift, shift_axis)`: first
the padding slab along `roll_axis` is rolled in place by `shift` along
`shift_axis`, then the whole array is rolled by `steps` along
`roll_axis`. -/
def tilted_roll_3d {α : Type} {L : Fin 3 → ℕ} (a : Arr α L) (steps : ℤ)
    (roll_axis : Fin 3) (shift : ℤ) (shift_axis : Fin 3) : Arr α L :=
  let b : Arr α L := fun v =>
    if inPad steps (L roll_axis) ((v roll_axis : ℕ) : ℤ) then
      a (Function.update v shift_axis (idxRoll shift (v shift_axis)))
    else a v
  roll3 steps roll_axis b

/-- The shape used by `_tilted_roll` when it lifts a 2d array into 3d via
`np.array([array])`: a leading axis of extent 1 followed by the two
original axes. -/
def pad3 (M : Fin 2 → ℕ) : Fin 3 → ℕ := fun i =>
  match i with
  | ⟨0, _⟩ => 1
  | ⟨1, _⟩ => M 0
  | ⟨2, _⟩ => M 1

/-- Lift of a 2d index to an index of the padded 3d shape (leading
coordinate 0, as in the slice `array[0, :, :]`). -/
def padIdx {M : Fin 2 → ℕ} (v : (i : Fin 2) → Fin (M i)) :
    (i : Fin 3) → Fin (pad3 M i) :=
  fun i => match i with
  | ⟨0, _⟩ => ⟨0, Nat.one_pos⟩
  | ⟨1, _⟩ => v 0
  | ⟨2, _⟩ => v 1

/-- Drop the leading padding coordinate of a padded 3d index. -/
def unpadIdx {M : Fin 2 → ℕ} (w : (i : Fin 3) → Fin (pad3 M i)) :
    (i : Fin 2) → Fin (M i) :=
  fun j => match j with
  | ⟨0, _⟩ => w 1
  | ⟨1, _⟩ => w 2

/-- Lift of a 2d array to the padded 3d shape (`np.array([array])`). -/
def arr2to3 {α : Type} {M : Fin 2 → ℕ} (a : Arr2 α M) : Arr α (pad3 M) :=
  fun w => a (unpadIdx w)

/-- The 2d branch of `_tilted_roll`: wrap the array into 3d, apply
`_tilted_roll_3d` with both axes shifted by one, and take the slice
`[0, :, :]` of the result. -/
def tilted_roll_2d {α : Type} {M : Fin 2 → ℕ} (a : Arr2 α M) (steps : ℤ)
    (roll_axis : Fin 2) (shift : ℤ) (shift_axis : Fin 2) : Arr2 α M :=
  fun v =>
    tilted_roll_3d (arr2to3 a) steps roll_axis.succ shift shift_axis.succ (padIdx v)

/-- `max(self._size)` for a 3d shape (Python's `max` of the tuple). -/
def maxSize3 (L : Fin 3 → ℕ) : ℕ := max (L 0) (max (L 1) (L 2))

/-- `self._size.index(max(self._size))` for a 3d shape: the first axis of
maximal extent. -/
def argmaxIdx3 (L : Fin 3 → ℕ) : Fin 3 :=
  if L 0 = maxSize3 L then 0 else if L 1 = maxSize3 L then 1 else 2

/-- `max(self._size)` for a 2d shape. -/
def maxSize2 (M : Fin 2 → ℕ) : ℕ := max (M 0) (M 1)

/-- `self._size.index(max(self._size))` for a 2d shape. -/
def argmaxIdx2 (M : Fin 2 → ℕ) : Fin 2 := if M 0 = maxSize2 M then 0 else 1

/-- `_boundary_roll(r, steps, axis)` on a 3d system of shape `L`:
periodic boundary conditions use `np.roll`; `'11_if'` and `'111_if'` use
the tilted roll with `shift_axis` the first axis of maximal extent and
`shift = max(size)//2`, unless `axis == shift_axis`; `'110_if'`
additionally keeps the axis `(shift_axis+1) % 3` periodic. -/
def boundary_roll3 {α : Type} (bc : BoundCond) (L : Fin 3 → ℕ) (r : Arr α L)
    (steps : ℤ) (axis : Fin 3) : Arr α L :=
  match bc with
  | .periodic => roll3 steps axis r
  | .if111 | .if11 =>
    let shift_axis := argmaxIdx3 L
    if shift_axis = axis then roll3 steps axis r
    else
      let shift := maxSize3 L / 2
      tilted_roll_3d r steps axis (shift : ℤ) shift_axis
  | .if110 =>
    let shift_axis := argmaxIdx3 L
    if shift_axis = axis then roll3 steps axis r
    else if ((shift_axis : ℕ) + 1) % 3 = (axis : ℕ) then roll3 steps axis r
    else
      let shift := maxSize3 L / 2
      tilted_roll_3d r steps axis (shift : ℤ) shift_axis

/-- `_boundary_roll(r, steps, axis)` on a 2d system of shape `M`. -/
def boundary_roll2 {α : Type} (bc : BoundCond) (M : Fin 2 → ℕ) (r : Arr2 α M)
    (steps : ℤ) (axis : Fin 2) : Arr2 α M :=
  match bc with
  | .periodic => roll2 steps axis r
  | .if111 | .if11 =>
    let shift_axis := argmaxIdx2 M
    if shift_axis = axis then roll2 steps axis r
    else
      let shift := maxSize2 M / 2
      tilted_roll_2d r steps axis (shift : ℤ) shift_axis
  | .if110 =>
    let shift_axis := argmaxIdx2 M
    if shift_axis = axis then roll2 steps axis r
    else if ((shift_axis : ℕ) + 1) % 3 = (axis : ℕ) then roll2 steps axis r
    else
      let shift := maxSize2 M / 2
      tilted_roll_2d r steps axis (shift : ℤ) shift_axis

/-! ### Mutation-tracking variant of the roll (frame property)

Numpy assignments mutate the buffer a variable points at.  The pair
returned below tracks (caller's buffer after the call, returned value).
`_tilted_roll_3d` starts with `array = np.copy(array)`, so its only
in-place slab assignment targets the fresh copy, never the caller's
buffer; `np.roll` always allocates. -/

/-- `_tilted_roll_3d` with the caller's buffer made explicit: component 1
is the caller's array after the call, component 2 the returned array. -/
def tilted_roll_3d_mem {α : Type} {L : Fin 3 → ℕ} (array0 : Arr α L)
    (steps : ℤ) (roll_axis : Fin 3) (shift : ℤ) (shift_axis : Fin 3) :
    Arr α L × Arr α L :=
  let array1 := array0
  let array2 : Arr α L := fun v =>
    if inPad steps (L roll_axis) ((v roll_axis : ℕ) : ℤ) then
      array1 (Function.update v shift_axis (idxRoll shift (v shift_axis)))
    else array1 v
  (array0, roll3 steps roll_axis array2)

/-- `_boundary_roll` on a 3d system with the caller's buffer made
explicit: component 1 is the caller's array after the call, component 2
the returned array. -/
def boundary_roll3_mem {α : Type} (bc : BoundCond) (L : Fin 3 → ℕ)
    (r : Arr α L) (steps : ℤ) (axis : Fin 3) : Arr α L × Arr α L :=
  match bc with
  | .periodic => (r, roll3 steps axis r)
  | .if111 | .if11 =>
    let shift_axis := argmaxIdx3 L
    if shift_axis = axis then (r, roll3 steps axis r)
    else
      let shift := maxSize3 L / 2
      tilted_roll_3d_mem r steps axis (shift : ℤ) shift_axis
  | .if110 =>
    let shift_axis := argmaxIdx3 L
    if shift_axis = axis then (r, roll3 steps axis r)
    else if ((shift_axis : ℕ) + 1) % 3 = (axis : ℕ) then (r, roll3 steps axis r)
    else
      let shift := maxSize3 L / 2
      tilted_roll_3d_mem r steps axis (shift : ℤ) shift_axis

/-- `_tilted_roll` in 2d with the caller's buffer made explicit:
`np.array([array])` already copies into a fresh 3d buffer, and
`_tilted_roll_3d` copies again before its in-place slab assignment. -/
def tilted_roll_2d_mem {α : Type} {M : Fin 2 → ℕ} (a : Arr2 α M) (steps : ℤ)
    (roll_axis : Fin 2) (shift : ℤ) (shift_axis : Fin 2) : Arr2 α M × Arr2 α M :=
  (a, fun v =>
    (tilted_roll_3d_mem (arr2to3 a) steps roll_axis.succ shift shift_axis.succ).2
      (padIdx v))

/-- `_boundary_roll` on a 2d system with the caller's buffer made
explicit. -/
def boundary_roll2_mem {α : Type} (bc : BoundCond) (M : Fin 2 → ℕ)
    (r : Arr2 α M) (steps : ℤ) (axis : Fin 2) : Arr2 α M × Arr2 α M :=
  match bc with
  | .periodic => (r, roll2 steps axis r)
  | .if111 | .if11 =>
    let shift_axis := argmaxIdx2 M
    if shift_axis = axis then (r, roll2 steps axis r)
    else
      let shift := maxSize2 M / 2
      tilted_roll_2d_mem r steps axis (shift : ℤ) shift_axis
  | .if110 =>
    let shift_axis := argmaxIdx2 M
    if shift_axis = axis then (r, roll2 steps axis r)
    else if ((shift_axis : ℕ) + 1) % 3 = (axis : ℕ) then (r, roll2 steps axis r)
    else
      let shift := maxSize2 M / 2
      tilted_roll_2d_mem r steps axis (shift : ℤ) shift_axis

/-! ### The bisection search (`generator.py`, `search_trans`)

`search_trans(Model, size, epsi, densRange, alpha, it_step, chp, acuracy,
initLeft, initRight, specLeft, specRight)` probes the midpoint of the
density interval with two systems built from the two seeds, compares
their `cal_semi_Om()` values and recurses on the half interval that can
still contain the transition.  The model specific collaborators are
abstracted into `SearchEnv`:
  * `create dens init` is `create_sys(Model, size, epsi, dens, init)`;
  * `iter_run sys` is `sys.make_picard_iteration(alpha, it_step, chp,
    min_err=10**(-20))` (in-place in Python, state passing here);
  * `semi_Om sys` is `sys.cal_semi_Om()`;
float arithmetic on densities and potentials is idealised as `ℚ`.
`save_syst` calls are recorded chronologically in a log of
(system, filename spec) pairs — `create_sys_name(dens, spec)` keeps the
spec string.  The prints of the terminal branches (`'Finish!!'` with the
final interval, `'no Transition here'`) are modelled by returning the
final `densRange`.  The Python recursion has no fuel; the explicit
`fuel` argument dominates the recursion depth, with `none` standing for
a recursion that would still be running after `fuel` rounds. -/

/-- The `init` argument of `create_sys`: a named nucleus shape
(`'hom'`, `'sph'`, `'cyl'`, `'sl'`) or an already existing system whose
profile is taken over. -/
inductive InitSeed (Sys : Type) where
  | name : String → InitSeed Sys
  | sys : Sys → InitSeed Sys

/-- The collaborators of `search_trans`. -/
structure SearchEnv (Sys : Type) where
  create : ℚ → InitSeed Sys → Sys
  iter_run : Sys → Sys
  semi_Om : Sys → ℚ

/-- `search_trans`, with an explicit fuel bound on the recursion depth.
Returns the final density interval together with the chronological log
of saved (system, spec) pairs. -/
def search_trans_fuel {Sys : Type} (env : SearchEnv Sys) (acuracy : ℚ)
    (specLeft specRight : String) :
    ℕ → ℚ × ℚ → InitSeed Sys → InitSeed Sys →
    Option ((ℚ × ℚ) × List (Sys × String))
  | 0, _, _, _ => none
  | fuel + 1, densRange, initLeft, initRight =>
    if acuracy < densRange.2 - densRange.1 then
      let dens := (densRange.2 + densRange.1) / 2
      let left := env.iter_run (env.create dens initLeft)
      let right := env.iter_run (env.create dens initRight)
      let leftF := env.semi_Om left
      let rightF := env.semi_Om right
      if |leftF - rightF| < 1 / 1000 then
        some ((densRange.1, densRange.2), [(left, "noTrans")])
      else if leftF < rightF then
        match search_trans_fuel env acuracy specLeft specRight fuel
            (dens, densRange.2) (.sys left) initRight with
        | none => none
        | some (iv, log) => some (iv, (left, specLeft) :: log)
      else
        match search_trans_fuel env acuracy specLeft specRight fuel
            (densRange.1, dens) initLeft (.sys right) with
        | none => none
        | some (iv, log) => some (iv, (right, specRight) :: log)
    else some ((densRange.1, densRange.2), [])

/-! ### Concrete fixtures used by the witnesses and counterexamples -/

/-- A small concrete `LdftState` (history `[]`, periodic boundary). -/
noncomputable def mkState (size : List ℕ) (muFix : List Bool) (mu dens : List ℝ)
    (vext rr : List (List ℝ)) (ithist : List ℕ) (itc : ℕ) : LdftState :=
  { size := size, mu_fix := muFix, mu := mu, dens := dens, v_ext := vext,
    r := rr, r_hist := [], it_hist := ithist, err_hist := [], it_counter := itc,
    bound_cond := .periodic }

/-- A functional whose (single species) output contains a NaN. -/
noncomputable def nanF : LdftState → List (List (Option ℝ)) := fun _ => [[none]]

/-- A constant zero functional for one species on one lattice site. -/
noncomputable def zeroF : LdftState → List (List (Option ℝ)) := fun _ => [[some 0]]

/-- A constant zero functional for one species on two lattice sites. -/
noncomputable def zero2F : LdftState → List (List (Option ℝ)) :=
  fun _ => [[some 0, some 0]]

/-- A two species functional: species 0 NaN-free, species 1 with a NaN. -/
noncomputable def mixedNanF : LdftState → List (List (Option ℝ)) :=
  fun _ => [[some 0], [none]]

/-- A trivial search environment: every probe relaxes to the same state,
therefore the two semi-grand potentials always coincide. -/
def unitEnv : SearchEnv Unit :=
  { create := fun _ _ => (), iter_run := fun s => s, semi_Om := fun _ => 0 }

/-- A search environment over `Sys := ℕ` where the two seeds relax to
distinguishable systems `1` (semi-grand potential 0) and `2` (semi-grand
potential 1). -/
def natEnv : SearchEnv ℕ :=
  { create := fun _ init =>
      match init with
      | .name n => if n = "sl" then 2 else 1
      | .sys m => m,
    iter_run := fun s => s,
    semi_Om := fun m => (m : ℚ) - 1 }

/-! ### Invariant predicates used by the lemmas below -/

/-- `s1` agrees with `s0` on `mu_fix`, on the lengths of `dens` and
`mu`, and on every `dens`/`mu` entry at positions `≥ k` (the species the
loop of `_make_picard_update` has not reached yet). -/
def MuDensAgree (k : ℕ) (s0 s1 : LdftState) : Prop :=
  s1.mu_fix = s0.mu_fix ∧ s1.dens.length = s0.dens.length ∧
  s1.mu.length = s0.mu.length ∧
  ∀ j, k ≤ j → s1.mu.getD j 0 = s0.mu.getD j 0 ∧ s1.dens.getD j 0 = s0.dens.getD j 0

/-- The history invariant of an `LdftModel`: `_it_hist` is nonempty with
strictly increasing entries, the last one at most `_it_counter`. -/
def HistInv (s : LdftState) : Prop :=
  s.it_hist ≠ [] ∧ s.it_hist.Chain' (· < ·) ∧
  s.it_hist.getLastD 0 ≤ s.it_counter

/-! ## Theorems -/

/-! ### Helper lemmas -/

/-- A left fold of subtractions over `List.range` is the start value
minus the sum. -/
theorem foldl_sub_range (f : ℕ → ℝ) (F : ℝ) (n : ℕ) :
    (List.range n).foldl (fun acc i => acc - f i) F = F - ∑ i ∈ Finset.range n, f i := by
  induction n generalizing F with
  | zero => simp
  | succ n ih =>
    rw [List.range_succ, List.foldl_append, ih, Finset.sum_range_succ]
    simp only [List.foldl_cons, List.foldl_nil]
    ring

/-- C8: for every model state, `cal_semi_Om` equals the free energy
`cal_F` minus, for exactly those species `i` with `mu_fix[i] = True`
(grand canonical), the term `mu[i] * np.sum(r[i])`; canonical species
contribute their free energy unmodified. -/
theorem cal_semi_Om_grand_canonical_only (s : LdftState) (F : ℝ) :
    cal_semi_Om s F =
      F - ∑ i ∈ (Finset.range s.mu_fix.length).filter (fun i => s.mu_fix.getD i false),
        s.mu.getD i 0 * (s.r.getD i []).sum := by
  rw [cal_semi_Om, foldl_sub_range
    (fun i => if s.mu_fix.getD i false then s.mu.getD i 0 * (s.r.getD i []).sum else 0),
    Finset.sum_filter]

/-- `floor(log10 n)` on concrete positive naturals. -/
theorem nat_log10_eval {n e : ℕ} (h1 : 10 ^ e ≤ n) (h2 : n < 10 ^ (e + 1)) :
    Nat.log 10 n = e := Nat.log_eq_of_pow_le_of_lt_pow h1 h2

/-- C4 counterexample: with policy `dec2` and last recorded index 10, the
code's next two checkpoints are 30 and then 50 — not 60 as claimed
(`30 + 2*10^floor(log10 30) = 50`). -/
theorem c4_counterexample_dec2_50_not_60 :
    set_new_checkp (mkState [2] [false] [0] [0] [[0, 0]] [[0, 0]] [10] 0) (.dec 2) = 30 ∧
    set_new_checkp (mkState [2] [false] [0] [0] [[0, 0]] [[0, 0]] [30] 0) (.dec 2) = 50 ∧
    (50 : ℚ) ≠ 60 := by
  have h10 : Nat.log 10 10 = 1 := nat_log10_eval (by norm_num) (by norm_num)
  have h30 : Nat.log 10 30 = 1 := nat_log10_eval (by norm_num) (by norm_num)
  refine ⟨?_, ?_, by norm_num⟩ <;>
    simp +decide [set_new_checkp, mkState, h10, h30] <;> norm_num

/-- C4 amended: with checkpoint policy `dec2` and an iteration history
whose last recorded index is 10, the successive checkpoints computed by
`_set_new_checkp` (each applied to the previously recorded checkpoint)
are 30, 50, 70, 90, 110, 310, 510, 710, 910, 1110, 3110, and so on: the
step is `2 * 10^floor(log10 last)` with no rounding to decade
boundaries. -/
theorem c4_amended_dec2_checkpoint_chain :
    set_new_checkp (mkState [2] [false] [0] [0] [[0, 0]] [[0, 0]] [10] 0) (.dec 2) = 30 ∧
    set_new_checkp (mkState [2] [false] [0] [0] [[0, 0]] [[0, 0]] [30] 0) (.dec 2) = 50 ∧
    set_new_checkp (mkState [2] [false] [0] [0] [[0, 0]] [[0, 0]] [50] 0) (.dec 2) = 70 ∧
    set_new_checkp (mkState [2] [false] [0] [0] [[0, 0]] [[0, 0]] [70] 0) (.dec 2) = 90 ∧
    set_new_checkp (mkState [2] [false] [0] [0] [[0, 0]] [[0, 0]] [90] 0) (.dec 2) = 110 ∧
    set_new_checkp (mkState [2] [false] [0] [0] [[0, 0]] [[0, 0]] [110] 0) (.dec 2) = 310 ∧
    set_new_checkp (mkState [2] [false] [0] [0] [[0, 0]] [[0, 0]] [310] 0) (.dec 2) = 510 ∧
    set_new_checkp (mkState [2] [false] [0] [0] [[0, 0]] [[0, 0]] [510] 0) (.dec 2) = 710 ∧
    set_new_checkp (mkState [2] [false] [0] [0] [[0, 0]] [[0, 0]] [710] 0) (.dec 2) = 910 ∧
    set_new_checkp (mkState [2] [false] [0] [0] [[0, 0]] [[0, 0]] [910] 0) (.dec 2) = 1110 ∧
    set_new_checkp (mkState [2] [false] [0] [0] [[0, 0]] [[0, 0]] [1110] 0) (.dec 2) = 3110 := by
  have h1 : Nat.log 10 10 = 1 := nat_log10_eval (by norm_num) (by norm_num)
  have h2 : Nat.log 10 30 = 1 := nat_log10_eval (by norm_num) (by norm_num)
  have h3 : Nat.log 10 50 = 1 := nat_log10_eval (by norm_num) (by norm_num)
  have h4 : Nat.log 10 70 = 1 := nat_log10_eval (by norm_num) (by norm_num)
  have h5 : Nat.log 10 90 = 1 := nat_log10_eval (by norm_num) (by norm_num)
  have h6 : Nat.log 10 110 = 2 := nat_log10_eval (by norm_num) (by norm_num)
  have h7 : Nat.log 10 310 = 2 := nat_log10_eval (by norm_num) (by norm_num)
  have h8 : Nat.log 10 510 = 2 := nat_log10_eval (by norm_num) (by norm_num)
  have h9 : Nat.log 10 710 = 2 := nat_log10_eval (by norm_num) (by norm_num)
  have h10 : Nat.log 10 910 = 2 := nat_log10_eval (by norm_num) (by norm_num)
  have h11 : Nat.log 10 1110 = 3 := nat_log10_eval (by norm_num) (by norm_num)
  refine ⟨?_, ?_, ?_, ?_, ?_, ?_, ?_, ?_, ?_, ?_, ?_⟩ <;>
    simp +decide [set_new_checkp, mkState, h1, h2, h3, h4, h5, h6, h7, h8, h9, h10, h11] <;>
    norm_num

/-- C5 (code evaluation at the failing input): in a round of
`search_trans` whose two probes relax to the distinguishable systems `1`
(left seed `'hom'`) and `2` (right seed `'sl'`), only the winning left
system is passed to the save boundary before the recursive call; the
probed right system `2` never appears in the save log. -/
theorem c5_only_winner_saved :
    search_trans_fuel natEnv (1 / 2) "left" "right" 2 (0, 1)
        (.name "hom") (.name "sl") = some ((1 / 2, 1), [(1, "left")]) ∧
    natEnv.iter_run (natEnv.create (1 / 2) (.name "sl")) = 2 ∧
    ∀ e ∈ [((1 : ℕ), "left")], e.1 ≠ 2 := by
  refine ⟨?_, by decide, by decide⟩
  simp [search_trans_fuel, natEnv]
  norm_num

/-- C6 amended, general part: whenever the initial width is at most
`acuracy * 2^k`, `search_trans` terminates within `k` recursing rounds
(fuel `k+1` suffices), and whenever no round hit the no-transition
branch (no `'noTrans'` entry in the save log), the final interval has
width at most `acuracy`. -/
theorem search_trans_fuel_terminates {Sys : Type} (env : SearchEnv Sys)
    (acuracy : ℚ) (sL sR : String) :
    ∀ (k : ℕ) (lo hi : ℚ) (initL initR : InitSeed Sys), 0 < acuracy →
      hi - lo ≤ acuracy * 2 ^ k →
      ∃ iv log, search_trans_fuel env acuracy sL sR (k + 1) (lo, hi) initL initR
          = some (iv, log) ∧
        ((∀ e ∈ log, e.2 ≠ "noTrans") → iv.2 - iv.1 ≤ acuracy) := by
  intro k
  induction k with
  | zero =>
    intro lo hi initL initR hacc hw
    rw [search_trans_fuel]
    have hc : ¬ acuracy < hi - lo := by
      simp only [pow_zero, mul_one] at hw; exact not_lt.mpr hw
    simp only [hc, if_false]
    exact ⟨(lo, hi), [], rfl, fun _ => by simpa using hw⟩
  | succ k ih =>
    intro lo hi initL initR hacc hw
    rw [search_trans_fuel]
    by_cases hc : acuracy < hi - lo
    · simp only [hc, if_true]
      set dens := (hi + lo) / 2 with hdens
      set left := env.iter_run (env.create dens initL) with hleft
      set right := env.iter_run (env.create dens initR) with hright
      by_cases hnt : |env.semi_Om left - env.semi_Om right| < 1 / 1000
      · simp only [hnt, if_true]
        exact ⟨(lo, hi), [(left, "noTrans")], rfl,
          fun hcl => (hcl (left, "noTrans") (by simp) rfl).elim⟩
      · simp only [hnt, if_false]
        by_cases hlr : env.semi_Om left < env.semi_Om right
        · simp only [hlr, if_true]
          obtain ⟨iv, log, hrec, hwid⟩ := ih dens hi (.sys left) initR hacc (by
            rw [hdens]; rw [pow_succ] at hw; linarith)
          rw [hrec]
          refine ⟨iv, (left, sL) :: log, rfl, fun hcl => hwid (fun e he => hcl e ?_)⟩
          exact List.mem_cons_of_mem _ he
        · simp only [hlr, if_false]
          obtain ⟨iv, log, hrec, hwid⟩ := ih lo dens initL (.sys right) hacc (by
            rw [hdens]; rw [pow_succ] at hw; linarith)
          rw [hrec]
          refine ⟨iv, (right, sR) :: log, rfl, fun hcl => hwid (fun e he => hcl e ?_)⟩
          exact List.mem_cons_of_mem _ he
    · simp only [hc, if_false]
      exact ⟨(lo, hi), [], rfl, fun _ => le_of_not_lt hc⟩

/-- C6 amended: `search_trans` always terminates — within `k` recursing
rounds whenever the starting width is at most `acuracy * 2^k` (the
interval halves in every recursing round), hence within at most 7 rounds
for `low = 0.1, high = 0.9, accuracy = 0.01`; the final interval has
width at most `accuracy` unless some round hit the no-transition branch
(`|leftF - rightF| < 1e-3`), which stops the search early with the
current, wider interval. -/
theorem c6_amended_bisection_terminates :
    (∀ (Sys : Type) (env : SearchEnv Sys) (acuracy : ℚ) (sL sR : String)
        (k : ℕ) (lo hi : ℚ) (initL initR : InitSeed Sys),
        0 < acuracy → hi - lo ≤ acuracy * 2 ^ k →
        ∃ iv log, search_trans_fuel env acuracy sL sR (k + 1) (lo, hi) initL initR
            = some (iv, log) ∧
          ((∀ e ∈ log, e.2 ≠ "noTrans") → iv.2 - iv.1 ≤ acuracy)) ∧
    (∀ (Sys : Type) (env : SearchEnv Sys) (sL sR : String)
        (initL initR : InitSeed Sys),
        ∃ iv log, search_trans_fuel env (1 / 100) sL sR (7 + 1) (1 / 10, 9 / 10)
            initL initR = some (iv, log)) := by
  constructor
  · intro Sys env acuracy sL sR k lo hi initL initR h1 h2
    exact search_trans_fuel_terminates env acuracy sL sR k lo hi initL initR h1 h2
  · intro Sys env sL sR initL initR
    obtain ⟨iv, log, h, _⟩ := search_trans_fuel_terminates env (1 / 100) sL sR 7
      (1 / 10) (9 / 10) initL initR (by norm_num) (by norm_num)
    exact ⟨iv, log, h⟩

/-- C6 witness: the general bound applied to a concrete environment and
interval. -/
theorem c6_witness :
    ∃ iv log, search_trans_fuel unitEnv 2 "left" "right" (0 + 1) (0, 1)
        (.name "hom") (.name "hom") = some (iv, log) ∧
      ((∀ e ∈ log, e.2 ≠ "noTrans") → iv.2 - iv.1 ≤ 2) :=
  c6_amended_bisection_terminates.1 Unit unitEnv 2 "left" "right" 0 0 1
    (.name "hom") (.name "hom") (by norm_num) (by norm_num)

/-- C6 counterexample: when the very first round finds no resolvable
transition (both probes relax to the same phase), `search_trans`
terminates at once and the final interval still has the full width 0.8,
far above `accuracy = 0.01` — refuting `"returns an interval of width at
most accuracy"` as an unconditional statement. -/
theorem c6_counterexample_noTrans_keeps_wide_interval :
    search_trans_fuel unitEnv (1 / 100) "left" "right" 8 (1 / 10, 9 / 10)
        (.name "hom") (.name "sl") = some ((1 / 10, 9 / 10), [((), "noTrans")]) ∧
    ¬((9 / 10 : ℚ) - 1 / 10 ≤ 1 / 100) := by
  refine ⟨?_, by norm_num⟩
  simp [search_trans_fuel, unitEnv]
  norm_num

/-- `speciesStep` writes only `dens` or `mu`; every other attribute of
the state is untouched. -/
theorem speciesStep_frame (V : ℕ) (s : LdftState) (i : ℕ) (t : List ℝ) :
    (speciesStep V s i t).1.size = s.size ∧
    (speciesStep V s i t).1.mu_fix = s.mu_fix ∧
    (speciesStep V s i t).1.v_ext = s.v_ext ∧
    (speciesStep V s i t).1.r = s.r ∧
    (speciesStep V s i t).1.r_hist = s.r_hist ∧
    (speciesStep V s i t).1.it_hist = s.it_hist ∧
    (speciesStep V s i t).1.err_hist = s.err_hist ∧
    (speciesStep V s i t).1.it_counter = s.it_counter := by
  unfold speciesStep
  split <;> simp

/-- The species loop writes only `dens` or `mu`. -/
theorem speciesLoop_frame (V : ℕ) :
    ∀ (temps : List (List (Option ℝ))) (s : LdftState) (i : ℕ)
      (acc : List (List ℝ)),
    (speciesLoop V s temps i acc).1.size = s.size ∧
    (speciesLoop V s temps i acc).1.mu_fix = s.mu_fix ∧
    (speciesLoop V s temps i acc).1.v_ext = s.v_ext ∧
    (speciesLoop V s temps i acc).1.r = s.r ∧
    (speciesLoop V s temps i acc).1.r_hist = s.r_hist ∧
    (speciesLoop V s temps i acc).1.it_hist = s.it_hist ∧
    (speciesLoop V s temps i acc).1.err_hist = s.err_hist ∧
    (speciesLoop V s temps i acc).1.it_counter = s.it_counter := by
  intro temps
  induction temps with
  | nil => intro s i acc; simp [speciesLoop]
  | cons t rest ih =>
    intro s i acc
    rw [speciesLoop]
    by_cases ht : t.any Option.isNone
    · simp [ht]
    · simp only [ht, if_false]
      obtain ⟨a1, a2, a3, a4, a5, a6, a7, a8⟩ :=
        speciesStep_frame V s i (t.map (fun o => o.getD 0))
      obtain ⟨b1, b2, b3, b4, b5, b6, b7, b8⟩ :=
        ih (speciesStep V s i (t.map (fun o => o.getD 0))).1 (i + 1)
          (acc ++ [(speciesStep V s i (t.map (fun o => o.getD 0))).2])
      exact ⟨b1.trans a1, b2.trans a2, b3.trans a3, b4.trans a4,
        b5.trans a5, b6.trans a6, b7.trans a7, b8.trans a8⟩

/-- If some species' `temp` contains a NaN, the species loop returns
`None`. -/
theorem speciesLoop_none_of_nan (V : ℕ) :
    ∀ (temps : List (List (Option ℝ))) (s : LdftState) (i : ℕ)
      (acc : List (List ℝ)),
      (∃ t ∈ temps, t.any Option.isNone = true) →
      (speciesLoop V s temps i acc).2 = none := by
  intro temps
  induction temps with
  | nil => rintro s i acc ⟨t, ht, _⟩; simp at ht
  | cons t rest ih =>
    rintro s i acc ⟨u, hu, hnan⟩
    rw [speciesLoop]
    rcases List.mem_cons.mp hu with h | h
    · subst h; simp [hnan]
    · by_cases ht : t.any Option.isNone
      · simp [ht]
      · simp only [ht, if_false]
        exact ih _ _ _ ⟨u, h, hnan⟩

/-- On a NaN, `_make_picard_update` returns `None`, keeping the partial
state of the species loop. -/
theorem make_picard_update_none_of_nan
    (muExF : LdftState → List (List (Option ℝ))) (alpha : ℝ) (s : LdftState)
    (hnan : ∃ t ∈ temp_of (muExF s) s, t.any Option.isNone = true) :
    make_picard_update muExF alpha s =
      ((speciesLoop s.size.prod s (temp_of (muExF s) s) 0 []).1, none) := by
  have h2 := speciesLoop_none_of_nan s.size.prod (temp_of (muExF s) s) s 0 [] hnan
  unfold make_picard_update
  rcases hsp : speciesLoop s.size.prod s (temp_of (muExF s) s) 0 [] with ⟨s1, res⟩
  rw [hsp] at h2
  simp only at h2
  subst h2
  simp only [hsp]

/-- C1 amended: if the functional returns a NaN-containing array on the
first update step, `make_picard_iteration` aborts with an exception —
Python's `TypeError` from unpacking the update's `None` return (the
update prints `'divergent!!!'` and returns `None`; no `DivergenceError`
class exists in the code) — and the density field `_r` before the failed
call is identical to the field after it. -/
theorem c1_amended_nan_aborts_field_unchanged
    (muExF : LdftState → List (List (Option ℝ))) (alpha : ℝ) (it_steps : ℕ)
    (checkp_method : CheckpMethod) (min_err : Option ℝ) (s : LdftState)
    (hsteps : 1 ≤ it_steps) (hne : s.it_hist ≠ [])
    (hnan : ∃ t ∈ temp_of (muExF s) s, t.any Option.isNone = true) :
    (make_picard_iteration muExF alpha it_steps checkp_method min_err s).2
        = some PyExc.typeError ∧
    (make_picard_iteration muExF alpha it_steps checkp_method min_err s).1.r
        = s.r := by
  obtain ⟨n, rfl⟩ : ∃ n, it_steps = n + 1 := ⟨it_steps - 1, by omega⟩
  have hupd := make_picard_update_none_of_nan muExF alpha s hnan
  have hr := (speciesLoop_frame s.size.prod (temp_of (muExF s) s) s 0 []).2.2.2.1
  unfold make_picard_iteration
  rw [picard_iter_loop, hupd]
  exact ⟨rfl, hr⟩

/-- C1 counterexample: a concrete run in which the functional returns
`[[NaN]]` on the first step: the iteration aborts with a `TypeError`
(there is no `DivergenceError` in the code to be raised), and the field
is unchanged. -/
theorem c1_counterexample_no_divergence_error :
    (make_picard_iteration nanF (1 / 2) 1 (.int 1) none
        (mkState [1] [false] [0] [1 / 2] [[0]] [[1 / 2]] [0] 0)).2
      = some PyExc.typeError ∧
    PyExc.typeError ≠ PyExc.divergenceError ∧
    (make_picard_iteration nanF (1 / 2) 1 (.int 1) none
        (mkState [1] [false] [0] [1 / 2] [[0]] [[1 / 2]] [0] 0)).1.r
      = [[(1 : ℝ) / 2]] := by
  refine ⟨?_, by decide, ?_⟩ <;>
    simp [make_picard_iteration, picard_iter_loop, make_picard_update,
      temp_of, speciesLoop, set_new_checkp, nanF, mkState]

/-- C1 witness: the amended statement applied to a concrete
grand-canonical one-species state. -/
theorem c1_witness :
    (make_picard_iteration nanF (1 / 2) 2 (.int 5) none
        (mkState [1] [true] [0] [1 / 2] [[0]] [[1 / 2]] [0] 0)).2
      = some PyExc.typeError ∧
    (make_picard_iteration nanF (1 / 2) 2 (.int 5) none
        (mkState [1] [true] [0] [1 / 2] [[0]] [[1 / 2]] [0] 0)).1.r
      = (mkState [1] [true] [0] [1 / 2] [[0]] [[1 / 2]] [0] 0).r :=
  c1_amended_nan_aborts_field_unchanged nanF (1 / 2) 2 (.int 5) none
    (mkState [1] [true] [0] [1 / 2] [[0]] [[1 / 2]] [0] 0)
    (by norm_num) (by simp [mkState])
    ⟨[none], by simp [temp_of, nanF, mkState], by simp⟩

/-- `speciesStep` leaves `dens` and `mu` untouched away from its species
index. -/
theorem speciesStep_getD_ne (V : ℕ) (s : LdftState) (k : ℕ) (t : List ℝ)
    (j : ℕ) (h : j ≠ k) :
    (speciesStep V s k t).1.dens.getD j 0 = s.dens.getD j 0 ∧
    (speciesStep V s k t).1.mu.getD j 0 = s.mu.getD j 0 := by
  unfold speciesStep
  split <;>
    simp [List.getD_eq_getElem?_getD, List.getElem?_set_ne (Ne.symm h)]

/-- The species loop leaves `dens` and `mu` untouched below its running
index. -/
theorem speciesLoop_preserves_below (V : ℕ) :
    ∀ (temps : List (List (Option ℝ))) (s : LdftState) (k : ℕ)
      (acc : List (List ℝ)) (j : ℕ), j < k →
      (speciesLoop V s temps k acc).1.dens.getD j 0 = s.dens.getD j 0 ∧
      (speciesLoop V s temps k acc).1.mu.getD j 0 = s.mu.getD j 0 := by
  intro temps
  induction temps with
  | nil => intro s k acc j hj; simp [speciesLoop]
  | cons t rest ih =>
    intro s k acc j hj
    rw [speciesLoop]
    by_cases ht : t.any Option.isNone
    · simp [ht]
    · simp only [ht, if_false]
      obtain ⟨h1, h2⟩ := ih (speciesStep V s k (t.map (fun o => o.getD 0))).1
        (k + 1) (acc ++ [(speciesStep V s k (t.map (fun o => o.getD 0))).2]) j
        (by omega)
      obtain ⟨g1, g2⟩ := speciesStep_getD_ne V s k (t.map (fun o => o.getD 0)) j
        (by omega)
      exact ⟨h1.trans g1, h2.trans g2⟩

/-- One `speciesStep` keeps the agreement invariant for the remaining
species, and its candidate profile only depends on the original scalars
of its own species. -/
theorem speciesStep_agree (V : ℕ) (s0 s1 : LdftState) (k : ℕ) (t : List ℝ)
    (h : MuDensAgree k s0 s1) :
    MuDensAgree (k + 1) s0 (speciesStep V s1 k t).1 ∧
    (speciesStep V s1 k t).2 = (speciesStep V s0 k t).2 := by
  obtain ⟨hfix, hdl, hml, hks⟩ := h
  have hmu : s1.mu[k]?.getD 0 = s0.mu[k]?.getD 0 := by
    have h2 := (hks k le_rfl).1; simpa [List.getD_eq_getElem?_getD] using h2
  have hdens : s1.dens[k]?.getD 0 = s0.dens[k]?.getD 0 := by
    have h2 := (hks k le_rfl).2; simpa [List.getD_eq_getElem?_getD] using h2
  have hmuJ : ∀ j, k + 1 ≤ j → s1.mu[j]?.getD 0 = s0.mu[j]?.getD 0 := fun j hj => by
    have h2 := (hks j (by omega)).1; simpa [List.getD_eq_getElem?_getD] using h2
  have hdensJ : ∀ j, k + 1 ≤ j → s1.dens[j]?.getD 0 = s0.dens[j]?.getD 0 := fun j hj => by
    have h2 := (hks j (by omega)).2; simpa [List.getD_eq_getElem?_getD] using h2
  by_cases hb : s1.mu_fix[k]?.getD false = true
  · have hb0 : s0.mu_fix[k]?.getD false = true := by rw [← hfix]; exact hb
    refine ⟨⟨?_, ?_, ?_, fun j hj => ⟨?_, ?_⟩⟩, ?_⟩
    · simp [speciesStep, List.getD_eq_getElem?_getD, hb, hb0, hfix]
    · simp [speciesStep, List.getD_eq_getElem?_getD, hb, hdl]
    · simp [speciesStep, List.getD_eq_getElem?_getD, hb, hml]
    · have hkj : k ≠ j := by omega
      simp [speciesStep, List.getD_eq_getElem?_getD, hb, hmuJ j hj]
    · have hkj : k ≠ j := by omega
      simp [speciesStep, List.getD_eq_getElem?_getD, hb,
        List.getElem?_set_ne hkj, hdensJ j hj]
    · simp [speciesStep, List.getD_eq_getElem?_getD, hb, hb0, hmu]
  · have hb0 : ¬ s0.mu_fix[k]?.getD false = true := by rw [← hfix]; exact hb
    refine ⟨⟨?_, ?_, ?_, fun j hj => ⟨?_, ?_⟩⟩, ?_⟩
    · simp [speciesStep, List.getD_eq_getElem?_getD, hb, hb0, hfix]
    · simp [speciesStep, List.getD_eq_getElem?_getD, hb, hdl]
    · simp [speciesStep, List.getD_eq_getElem?_getD, hb, hml]
    · have hkj : k ≠ j := by omega
      simp [speciesStep, List.getD_eq_getElem?_getD, hb,
        List.getElem?_set_ne hkj, hmuJ j hj]
    · have hkj : k ≠ j := by omega
      simp [speciesStep, List.getD_eq_getElem?_getD, hb, hdensJ j hj]
    · simp [speciesStep, List.getD_eq_getElem?_getD, hb, hb0, hdens]

/-- The value `speciesStep` writes at its own species index. -/
theorem speciesStep_getD_self (V : ℕ) (s : LdftState) (k : ℕ) (t : List ℝ) :
    (s.mu_fix.getD k false = true → k < s.dens.length →
      (speciesStep V s k t).1.dens.getD k 0 =
        listMean (t.map (fun x => x * Real.exp (s.mu.getD k 0)))) ∧
    (s.mu_fix.getD k false = false → k < s.mu.length →
      (speciesStep V s k t).1.mu.getD k 0 =
        Real.log (s.dens.getD k 0 / (t.sum / (V : ℝ)))) := by
  constructor
  · intro hb hk
    have hb2 : s.mu_fix[k]?.getD false = true := by
      simpa [List.getD_eq_getElem?_getD] using hb
    simp [speciesStep, hb2, List.getD_eq_getElem?_getD,
      List.getElem?_set_eq_of_lt _ hk]
  · intro hb hk
    have hb2 : s.mu_fix[k]?.getD false = false := by
      simpa [List.getD_eq_getElem?_getD] using hb
    simp [speciesStep, hb2, List.getD_eq_getElem?_getD,
      List.getElem?_set_eq_of_lt _ hk]

/-- Failure path of the species loop: with the first NaN at relative
species index `j0`, the loop returns `None`, but every earlier species
has already had its scalar written — `dens` (grand canonical) or `mu`
(canonical) holds the freshly computed value of this update. -/
theorem speciesLoop_fail_partial (V : ℕ) :
    ∀ (temps : List (List (Option ℝ))) (s0 s1 : LdftState) (k : ℕ)
      (acc : List (List ℝ)) (j0 : ℕ),
      MuDensAgree k s0 s1 →
      j0 < temps.length →
      (temps.getD j0 []).any Option.isNone = true →
      (∀ j, j < j0 → (temps.getD j []).any Option.isNone = false) →
      (speciesLoop V s1 temps k acc).2 = none ∧
      ∀ j, j < j0 →
        (s0.mu_fix.getD (k + j) false = true →
          k + j < s0.dens.length →
          (speciesLoop V s1 temps k acc).1.dens.getD (k + j) 0 =
            listMean (((temps.getD j []).map (fun o => o.getD 0)).map
              (fun x => x * Real.exp (s0.mu.getD (k + j) 0)))) ∧
        (s0.mu_fix.getD (k + j) false = false →
          k + j < s0.mu.length →
          (speciesLoop V s1 temps k acc).1.mu.getD (k + j) 0 =
            Real.log (s0.dens.getD (k + j) 0 /
              (((temps.getD j []).map (fun o => o.getD 0)).sum / (V : ℝ)))) := by
  intro temps
  induction temps with
  | nil => intro s0 s1 k acc j0 _ h2 _ _; simp at h2
  | cons t rest ih =>
    intro s0 s1 k acc j0 hagree hlen hfail hpre
    match j0 with
    | 0 =>
      have hf : t.any Option.isNone = true := by simpa using hfail
      rw [speciesLoop]
      refine ⟨by simp [hf], fun j hj => absurd hj (by omega)⟩
    | (m + 1) =>
      have ht : t.any Option.isNone = false := by simpa using hpre 0 (by omega)
      have hloopEq : speciesLoop V s1 (t :: rest) k acc =
          speciesLoop V (speciesStep V s1 k (t.map (fun o => o.getD 0))).1 rest
            (k + 1) (acc ++ [(speciesStep V s1 k (t.map (fun o => o.getD 0))).2]) := by
        rw [speciesLoop]; simp [ht]
      obtain ⟨hagree2, hcand⟩ :=
        speciesStep_agree V s0 s1 k (t.map (fun o => o.getD 0)) hagree
      obtain ⟨hnone, hvals⟩ := ih s0 (speciesStep V s1 k (t.map (fun o => o.getD 0))).1
        (k + 1) (acc ++ [(speciesStep V s1 k (t.map (fun o => o.getD 0))).2]) m hagree2
        (by simpa using hlen) (by simpa using hfail)
        (fun j hj => by have h3 := hpre (j + 1) (by omega); simpa using h3)
      rw [hloopEq]
      refine ⟨hnone, ?_⟩
      intro j hj
      match j with
      | 0 =>
        obtain ⟨hpd, hpm⟩ := speciesLoop_preserves_below V rest
          (speciesStep V s1 k (t.map (fun o => o.getD 0))).1 (k + 1)
          (acc ++ [(speciesStep V s1 k (t.map (fun o => o.getD 0))).2]) k (by omega)
        obtain ⟨hfix, hdl, hml, hks⟩ := hagree
        obtain ⟨hmuK, hdensK⟩ := hks k le_rfl
        constructor
        · intro hgB hkd
          simp only [Nat.add_zero] at hgB hkd ⊢
          simp only [List.getD_cons_zero]
          rw [hpd]
          have hself := (speciesStep_getD_self V s1 k (t.map (fun o => o.getD 0))).1
            (by rw [hfix]; exact hgB) (by rw [hdl]; exact hkd)
          rw [hself, hmuK]
        · intro hgB hkm
          simp only [Nat.add_zero] at hgB hkm ⊢
          simp only [List.getD_cons_zero]
          rw [hpm]
          have hself := (speciesStep_getD_self V s1 k (t.map (fun o => o.getD 0))).2
            (by rw [hfix]; exact hgB) (by rw [hml]; exact hkm)
          rw [hself, hdensK]
      | (jm + 1) =>
        have hidx : k + (jm + 1) = (k + 1) + jm := by omega
        have hv := hvals jm (by omega)
        rw [hidx]
        constructor
        · intro hgB hkd
          have h5 := hv.1 hgB hkd
          simpa using h5
        · intro hgB hkm
          have h5 := hv.2 hgB hkm
          simpa using h5

/-- C10: if the excess chemical potential yields a NaN for species `i`
while all species `j < i` are NaN-free, `_make_picard_update` returns
`None` leaving `_r` and `_it_counter` unchanged, but the per species
scalar state of every species `j < i` has already been overwritten with
this update's freshly computed value — `_dens[j]` for grand canonical
species, `_mu[j]` for canonical species — so the abort is not atomic
over the whole per species state. -/
theorem c10_nonatomic_abort
    (muExF : LdftState → List (List (Option ℝ))) (alpha : ℝ) (s : LdftState)
    (i : ℕ) (hi : i < s.mu_fix.length)
    (hfail : ((temp_of (muExF s) s).getD i []).any Option.isNone = true)
    (hpre : ∀ j, j < i → ((temp_of (muExF s) s).getD j []).any Option.isNone = false) :
    (make_picard_update muExF alpha s).2 = none ∧
    (make_picard_update muExF alpha s).1.r = s.r ∧
    (make_picard_update muExF alpha s).1.it_counter = s.it_counter ∧
    ∀ j, j < i →
      (s.mu_fix.getD j false = true → j < s.dens.length →
        (make_picard_update muExF alpha s).1.dens.getD j 0 =
          listMean ((((temp_of (muExF s) s).getD j []).map (fun o => o.getD 0)).map
            (fun x => x * Real.exp (s.mu.getD j 0)))) ∧
      (s.mu_fix.getD j false = false → j < s.mu.length →
        (make_picard_update muExF alpha s).1.mu.getD j 0 =
          Real.log (s.dens.getD j 0 /
            ((((temp_of (muExF s) s).getD j []).map (fun o => o.getD 0)).sum /
              (s.size.prod : ℝ)))) := by
  have hagree0 : MuDensAgree 0 s s := ⟨rfl, rfl, rfl, fun j _ => ⟨rfl, rfl⟩⟩
  have hlen : i < (temp_of (muExF s) s).length := by simpa [temp_of] using hi
  have hmem : (temp_of (muExF s) s).getD i [] ∈ temp_of (muExF s) s := by
    rw [List.getD_eq_getElem _ _ hlen]
    exact List.getElem_mem hlen
  have hupd := make_picard_update_none_of_nan muExF alpha s
    ⟨(temp_of (muExF s) s).getD i [], hmem, hfail⟩
  obtain ⟨hnone, hvals⟩ := speciesLoop_fail_partial s.size.prod
    (temp_of (muExF s) s) s s 0 [] i hagree0 hlen hfail hpre
  obtain ⟨_, _, _, hr, _, _, _, hcnt⟩ :=
    speciesLoop_frame s.size.prod (temp_of (muExF s) s) s 0 []
  rw [hupd]
  refine ⟨rfl, hr, hcnt, fun j hj => ?_⟩
  have hv := hvals j hj
  simpa using hv

/-- C10 witness: two species, species 0 canonical and NaN-free, species
1 producing a NaN — the update aborts with `_r` and `_it_counter`
unchanged while `_mu[0]` has already been overwritten. -/
theorem c10_witness :
    (make_picard_update mixedNanF (1 / 2)
        (mkState [1] [false, true] [0, 0] [1 / 2, 1 / 2] [[0], [0]]
          [[1 / 2], [1 / 2]] [0] 0)).2 = none ∧
    (make_picard_update mixedNanF (1 / 2)
        (mkState [1] [false, true] [0, 0] [1 / 2, 1 / 2] [[0], [0]]
          [[1 / 2], [1 / 2]] [0] 0)).1.r =
      (mkState [1] [false, true] [0, 0] [1 / 2, 1 / 2] [[0], [0]]
          [[1 / 2], [1 / 2]] [0] 0).r ∧
    (make_picard_update mixedNanF (1 / 2)
        (mkState [1] [false, true] [0, 0] [1 / 2, 1 / 2] [[0], [0]]
          [[1 / 2], [1 / 2]] [0] 0)).1.it_counter =
      (mkState [1] [false, true] [0, 0] [1 / 2, 1 / 2] [[0], [0]]
          [[1 / 2], [1 / 2]] [0] 0).it_counter ∧
    (make_picard_update mixedNanF (1 / 2)
        (mkState [1] [false, true] [0, 0] [1 / 2, 1 / 2] [[0], [0]]
          [[1 / 2], [1 / 2]] [0] 0)).1.mu.getD 0 0 =
      Real.log ((mkState [1] [false, true] [0, 0] [1 / 2, 1 / 2] [[0], [0]]
          [[1 / 2], [1 / 2]] [0] 0).dens.getD 0 0 /
        ((((temp_of (mixedNanF (mkState [1] [false, true] [0, 0] [1 / 2, 1 / 2]
              [[0], [0]] [[1 / 2], [1 / 2]] [0] 0))
            (mkState [1] [false, true] [0, 0] [1 / 2, 1 / 2] [[0], [0]]
              [[1 / 2], [1 / 2]] [0] 0)).getD 0 []).map (fun o => o.getD 0)).sum /
          ((mkState [1] [false, true] [0, 0] [1 / 2, 1 / 2] [[0], [0]]
              [[1 / 2], [1 / 2]] [0] 0).size.prod : ℝ))) := by
  have h := c10_nonatomic_abort mixedNanF (1 / 2)
    (mkState [1] [false, true] [0, 0] [1 / 2, 1 / 2] [[0], [0]]
      [[1 / 2], [1 / 2]] [0] 0) 1
    (by simp [mkState])
    (by simp [temp_of, mixedNanF, mkState, List.range_succ])
    (by
      intro j hj
      interval_cases j
      simp [temp_of, mixedNanF, mkState, List.range_succ])
  exact ⟨h.1, h.2.1, h.2.2.1,
    (h.2.2.2 0 (by norm_num)).2 (by simp [mkState]) (by simp [mkState])⟩

/-- A successful `_make_picard_update` keeps the histories and advances
`_it_counter` by exactly one. -/
theorem make_picard_update_success_fields
    (muExF : LdftState → List (List (Option ℝ))) (alpha : ℝ)
    (s s1 : LdftState) (x : List (List ℝ) × List ℝ)
    (h : make_picard_update muExF alpha s = (s1, some x)) :
    s1.it_hist = s.it_hist ∧ s1.r_hist = s.r_hist ∧
    s1.err_hist = s.err_hist ∧ s1.it_counter = s.it_counter + 1 := by
  obtain ⟨f1, f2, f3, f4, f5, f6, f7, f8⟩ :=
    speciesLoop_frame s.size.prod (temp_of (muExF s) s) s 0 []
  unfold make_picard_update at h
  rcases hsp : speciesLoop s.size.prod s (temp_of (muExF s) s) 0 [] with ⟨sL, res⟩
  rw [hsp] at f1 f2 f3 f4 f5 f6 f7 f8
  simp only [hsp] at h
  cases res with
  | none => simp at h
  | some rn =>
    rw [Prod.mk.injEq] at h
    obtain ⟨hs1, _⟩ := h
    rw [← hs1]
    have f5x : sL.r_hist = s.r_hist := f5
    have f6x : sL.it_hist = s.it_hist := f6
    have f7x : sL.err_hist = s.err_hist := f7
    have f8x : sL.it_counter = s.it_counter := f8
    exact ⟨f6x, f5x, f7x, by show sL.it_counter + 1 = s.it_counter + 1; rw [f8x]⟩

/-- `_append_hist` preserves the history invariant when the current
iteration counter lies strictly beyond the last recorded index; the new
last entry is exactly `_it_counter`. -/
theorem append_hist_histinv (s : LdftState) (h : HistInv s)
    (hlt : s.it_hist.getLastD 0 < s.it_counter) :
    HistInv (append_hist s) ∧
    (append_hist s).it_hist.getLastD 0 = s.it_counter ∧
    (append_hist s).it_counter = s.it_counter := by
  obtain ⟨hne, hchain, _⟩ := h
  have hlast : (append_hist s).it_hist.getLastD 0 = s.it_counter := by
    show (s.it_hist ++ [s.it_counter]).getLastD 0 = s.it_counter
    simp [List.getLastD_concat]
  refine ⟨⟨by simp [append_hist], ?_, by rw [hlast]; exact le_rfl⟩, hlast, rfl⟩
  show (s.it_hist ++ [s.it_counter]).Chain' (· < ·)
  rw [List.chain'_append]
  refine ⟨hchain, List.chain'_singleton _, fun x hx y hy => ?_⟩
  simp only [List.head?_cons, Option.mem_def, Option.some.injEq] at hy
  subst hy
  rw [List.getLast?_eq_getLast s.it_hist hne, Option.mem_def,
    Option.some.injEq] at hx
  subst hx
  calc s.it_hist.getLast hne = s.it_hist.getLastD 0 := by
        rw [List.getLastD_eq_getLast?, List.getLast?_eq_getLast s.it_hist hne]; rfl
    _ < s.it_counter := hlt

/-- The driving loop keeps the history invariant as long as no exception
is raised. -/
theorem picard_loop_histinv (muExF : LdftState → List (List (Option ℝ)))
    (alpha : ℝ) (checkp_method : CheckpMethod) (min_err : Option ℝ) :
    ∀ (n : ℕ) (checkp : ℚ) (s : LdftState), HistInv s →
      (picard_iter_loop muExF alpha checkp_method min_err n checkp s).2 = none →
      HistInv (picard_iter_loop muExF alpha checkp_method min_err n checkp s).1 ∧
      s.it_counter ≤
        (picard_iter_loop muExF alpha checkp_method min_err n checkp s).1.it_counter := by
  intro n
  induction n with
  | zero => intro checkp s h _; rw [picard_iter_loop]; exact ⟨h, le_rfl⟩
  | succ n ih =>
    intro checkp s h hrun
    rw [picard_iter_loop] at hrun ⊢
    rcases hu : make_picard_update muExF alpha s with ⟨s1, res⟩
    rw [hu] at hrun
    cases res with
    | none => simp at hrun
    | some x =>
      rcases x with ⟨rr, error⟩
      obtain ⟨hhist, hrhist, herr, hcnt⟩ :=
        make_picard_update_success_fields muExF alpha s s1 (rr, error) hu
      obtain ⟨hne, hchain, hle⟩ := h
      simp only at hrun ⊢
      set s2 : LdftState := {s1 with err_hist := s1.err_hist ++ [error]} with hs2
      have h2hist : s2.it_hist = s.it_hist := hhist
      have h2cnt : s2.it_counter = s.it_counter + 1 := hcnt
      have hinv2 : HistInv s2 :=
        ⟨by rw [h2hist]; exact hne, by rw [h2hist]; exact hchain,
          by rw [h2hist, h2cnt]; omega⟩
      have hinv3 : HistInv (if (s2.it_counter : ℚ) - checkp = 0
            then append_hist s2 else s2) ∧
          s.it_counter + 1 ≤ (if (s2.it_counter : ℚ) - checkp = 0
            then append_hist s2 else s2).it_counter := by
        by_cases hc : (s2.it_counter : ℚ) - checkp = 0
        · rw [if_pos hc]
          have hlt : s2.it_hist.getLastD 0 < s2.it_counter := by
            rw [h2hist, h2cnt]; omega
          obtain ⟨ha, _, hb⟩ := append_hist_histinv s2 hinv2 hlt
          exact ⟨ha, by rw [hb, h2cnt]⟩
        · rw [if_neg hc]
          exact ⟨hinv2, by rw [h2cnt]⟩
      cases min_err with
      | none =>
        simp only at hrun ⊢
        obtain ⟨hi1, hi2⟩ := ih _ _ hinv3.1 hrun
        refine ⟨hi1, le_trans ?_ hi2⟩
        show s.it_counter ≤
          (if (s2.it_counter : ℚ) - checkp = 0 then append_hist s2 else s2).it_counter
        omega
      | some me =>
        simp only at hrun ⊢
        by_cases hb : ∀ e ∈ error, e < me
        · rw [if_pos hb] at hrun ⊢
          refine ⟨hinv3.1, ?_⟩
          show s.it_counter ≤
            (if (s2.it_counter : ℚ) - checkp = 0 then append_hist s2 else s2).it_counter
          omega
        · rw [if_neg hb] at hrun ⊢
          obtain ⟨hi1, hi2⟩ := ih _ _ hinv3.1 hrun
          refine ⟨hi1, le_trans ?_ hi2⟩
          show s.it_counter ≤
            (if (s2.it_counter : ℚ) - checkp = 0 then append_hist s2 else s2).it_counter
          omega

/-- C7: after every call to `make_picard_iteration` that returns
normally, the iteration history `_it_hist` is nonempty, its last entry
equals `_it_counter`, and its entries are strictly increasing — given
that the state started with the history invariant every constructor and
`set_r` establish. -/
theorem c7_history_last_equals_counter
    (muExF : LdftState → List (List (Option ℝ))) (alpha : ℝ) (it_steps : ℕ)
    (checkp_method : CheckpMethod) (min_err : Option ℝ) (s s1 : LdftState)
    (hne : s.it_hist ≠ []) (hchain : s.it_hist.Chain' (· < ·))
    (hlast : s.it_hist.getLastD 0 ≤ s.it_counter)
    (hrun : make_picard_iteration muExF alpha it_steps checkp_method min_err s
      = (s1, none)) :
    s1.it_hist ≠ [] ∧ s1.it_hist.getLastD 0 = s1.it_counter ∧
    s1.it_hist.Chain' (· < ·) := by
  unfold make_picard_iteration at hrun
  rcases hl : picard_iter_loop muExF alpha checkp_method min_err it_steps
    (set_new_checkp s checkp_method) s with ⟨sL, res⟩
  rw [hl] at hrun
  cases res with
  | some e => simp at hrun
  | none =>
    simp only at hrun
    obtain ⟨hinv, _⟩ := picard_loop_histinv muExF alpha checkp_method min_err
      it_steps (set_new_checkp s checkp_method) s ⟨hne, hchain, hlast⟩ (by rw [hl])
    rw [hl] at hinv
    have hinv2 : HistInv sL := hinv
    obtain ⟨hLne, hLchain, hLle⟩ := hinv2
    by_cases hc : sL.it_counter = sL.it_hist.getLastD 0
    · rw [if_pos hc] at hrun
      rw [Prod.mk.injEq] at hrun
      obtain ⟨h1, _⟩ := hrun
      rw [← h1]
      exact ⟨hLne, hc.symm, hLchain⟩
    · rw [if_neg hc] at hrun
      rw [Prod.mk.injEq] at hrun
      obtain ⟨h1, _⟩ := hrun
      rw [← h1]
      have hlt : sL.it_hist.getLastD 0 < sL.it_counter := by omega
      obtain ⟨⟨a1, a2, _⟩, b1, b2⟩ :=
        append_hist_histinv sL ⟨hLne, hLchain, hLle⟩ hlt
      exact ⟨a1, by rw [b1, b2], a2⟩

/-- C7 witness: a concrete one step run (canonical species, zero
functional) ends with the history `[0, 1]` whose last entry is the
counter. -/
theorem c7_witness :
    (make_picard_iteration zeroF (1 / 2) 1 (.int 5) none
        (mkState [1] [false] [0] [1 / 2] [[0]] [[1 / 2]] [0] 0)).1.it_hist ≠ [] ∧
    (make_picard_iteration zeroF (1 / 2) 1 (.int 5) none
        (mkState [1] [false] [0] [1 / 2] [[0]] [[1 / 2]] [0] 0)).1.it_hist.getLastD 0 =
      (make_picard_iteration zeroF (1 / 2) 1 (.int 5) none
        (mkState [1] [false] [0] [1 / 2] [[0]] [[1 / 2]] [0] 0)).1.it_counter ∧
    (make_picard_iteration zeroF (1 / 2) 1 (.int 5) none
        (mkState [1] [false] [0] [1 / 2] [[0]] [[1 / 2]] [0] 0)).1.it_hist.Chain'
      (· < ·) :=
  c7_history_last_equals_counter zeroF (1 / 2) 1 (.int 5) none
    (mkState [1] [false] [0] [1 / 2] [[0]] [[1 / 2]] [0] 0) _
    (by simp [mkState]) (by simp [mkState]) (by simp [mkState])
    (by
      have h2 : (make_picard_iteration zeroF (1 / 2) 1 (.int 5) none
          (mkState [1] [false] [0] [1 / 2] [[0]] [[1 / 2]] [0] 0)).2 = none := by
        simp [make_picard_iteration, picard_iter_loop, make_picard_update,
          temp_of, speciesLoop, speciesStep, set_new_checkp, append_hist,
          zeroF, mkState, List.range_succ]
      rw [← h2])

/-- The sum of the mixed profile `alpha*r_new + (1-alpha)*r`. -/
theorem sum_zip_mix (alpha : ℝ) :
    ∀ (a b : List ℝ), a.length = b.length →
      ((a.zip b).map (fun p => alpha * p.1 + (1 - alpha) * p.2)).sum
        = alpha * a.sum + (1 - alpha) * b.sum := by
  intro a
  induction a with
  | nil =>
    intro b h
    have hb : b = [] := List.eq_nil_of_length_eq_zero h.symm
    subst hb; simp
  | cons x xs ih =>
    intro b h
    cases b with
    | nil => simp at h
    | cons y ys =>
      have h2 : xs.length = ys.length := by simpa using h
      simp only [List.zip_cons_cons, List.map_cons, List.sum_cons, ih ys h2]
      ring

/-- Success path of the species loop: with no NaN anywhere, the loop
returns the list of candidate profiles, each computed from the original
per species scalars. -/
theorem speciesLoop_success (V : ℕ) :
    ∀ (temps : List (List (Option ℝ))) (s0 s1 : LdftState) (k : ℕ)
      (acc : List (List ℝ)),
      MuDensAgree k s0 s1 →
      (∀ t ∈ temps, t.any Option.isNone = false) →
      (speciesLoop V s1 temps k acc).2 =
        some (acc ++ temps.mapIdx (fun j t =>
          (speciesStep V s0 (k + j) (t.map (fun o => o.getD 0))).2)) := by
  intro temps
  induction temps with
  | nil => intro s0 s1 k acc _ _; simp [speciesLoop]
  | cons t rest ih =>
    intro s0 s1 k acc hagree hok
    have ht : t.any Option.isNone = false := hok t (by simp)
    rw [speciesLoop]
    simp only [ht, Bool.false_eq_true, if_false]
    obtain ⟨hagree2, hcand⟩ :=
      speciesStep_agree V s0 s1 k (t.map (fun o => o.getD 0)) hagree
    rw [ih s0 _ (k + 1) _ hagree2 (fun u hu => hok u (by simp [hu]))]
    rw [hcand, List.mapIdx_cons]
    have harith : (fun (i : ℕ) (u : List (Option ℝ)) =>
        (speciesStep V s0 (k + 1 + i) (u.map (fun o => o.getD 0))).2) =
        (fun (i : ℕ) (u : List (Option ℝ)) =>
        (speciesStep V s0 (k + (i + 1)) (u.map (fun o => o.getD 0))).2) := by
      funext i u
      rw [show k + 1 + i = k + (i + 1) from by omega]
    rw [harith]
    simp

/-- C2 amended: for every canonical species `i`, every starting field
whose spatial mean already equals the configured average density
`_dens[i]`, and every `alpha ∈ (0,1)`, after one `_make_picard_update`
the spatial mean of the updated field `_r[i]` equals `_dens[i]` exactly.
(For a starting field with a different mean, one step gives
`alpha*dens + (1-alpha)*mean(old)`, not `dens` — see the
counterexample.) -/
theorem c2_amended_canonical_mean
    (muExF : LdftState → List (List (Option ℝ))) (alpha : ℝ) (s : LdftState)
    (i : ℕ) (hi : i < s.mu_fix.length)
    (hfix : s.mu_fix.getD i false = false)
    (halpha : 0 < alpha ∧ alpha < 1)
    (hok : ∀ t ∈ temp_of (muExF s) s, t.any Option.isNone = false)
    (hV : 0 < s.size.prod)
    (htL : ((temp_of (muExF s) s).getD i []).length = s.size.prod)
    (hrL : (s.r.getD i []).length = s.size.prod)
    (hmean : listMean (s.r.getD i []) = s.dens.getD i 0) :
    (make_picard_update muExF alpha s).2 ≠ none ∧
    listMean ((make_picard_update muExF alpha s).1.r.getD i [])
      = s.dens.getD i 0 := by
  have hlenT : (temp_of (muExF s) s).length = s.mu_fix.length := by simp [temp_of]
  have hiT : i < (temp_of (muExF s) s).length := by omega
  have hloop := speciesLoop_success s.size.prod (temp_of (muExF s) s) s s 0 []
    ⟨rfl, rfl, rfl, fun _ _ => ⟨rfl, rfl⟩⟩ hok
  rcases hl : speciesLoop s.size.prod s (temp_of (muExF s) s) 0 [] with ⟨sL, res⟩
  rw [hl] at hloop
  have hres : res = some ((temp_of (muExF s) s).mapIdx (fun j t =>
      (speciesStep s.size.prod s (0 + j) (t.map (fun o => o.getD 0))).2)) := by
    simpa using hloop
  subst hres
  unfold make_picard_update
  simp only [hl]
  simp only [ne_eq, reduceCtorEq, not_false_eq_true, true_and]
  -- the updated field of species i
  have hRNlen : ((temp_of (muExF s) s).mapIdx (fun j t =>
      (speciesStep s.size.prod s (0 + j) (t.map (fun o => o.getD 0))).2)).length
      = (temp_of (muExF s) s).length := by simp
  have hiRN : i < (List.mapIdx (fun j t =>
      (speciesStep s.size.prod s (0 + j) (List.map (fun o => o.getD 0) t)).2)
        (temp_of (muExF s) s)).length := by simpa [hRNlen] using hiT
  rw [List.getD_eq_getElem _ _ (show i < _ from by simpa using hiRN)]
  simp only [List.getElem_map, List.getElem_range]
  rw [List.getD_eq_getElem _ _ hiRN, List.getElem_mapIdx]
  simp only [Nat.zero_add]
  -- the canonical branch of the step
  have hfix2 : s.mu_fix[i]?.getD false = false := by
    simpa [List.getD_eq_getElem?_getD] using hfix
  set t0 : List (Option ℝ) := (temp_of (muExF s) s)[i] with ht0
  have ht0D : (temp_of (muExF s) s).getD i [] = t0 :=
    List.getD_eq_getElem _ _ hiT
  have hstep2 : (speciesStep s.size.prod s i (t0.map (fun o => o.getD 0))).2 =
      (t0.map (fun o => o.getD 0)).map (fun x => x *
        (s.dens.getD i 0 / ((t0.map (fun o => o.getD 0)).sum / (s.size.prod : ℝ)))) := by
    simp only [speciesStep, List.getD_eq_getElem?_getD, hfix2,
      Bool.false_eq_true, if_false]
  rw [hstep2]
  -- positivity of the Boltzmann factors
  have hmemT : t0 ∈ temp_of (muExF s) s := by
    rw [ht0]; exact List.getElem_mem hiT
  have hnoNan := hok t0 hmemT
  have hpos : ∀ x ∈ t0.map (fun o => o.getD 0), 0 < x := by
    intro x hx
    obtain ⟨o, ho, rfl⟩ := List.mem_map.mp hx
    have hoNN : ¬ (o.isNone = true) := by
      intro hcon
      have := List.any_eq_true.mpr ⟨o, ho, hcon⟩
      rw [hnoNan] at this
      exact Bool.false_ne_true this
    have hgi : (temp_of (muExF s) s).getD i [] =
        (((muExF s).getD i []).zip (s.v_ext.getD i [])).map
          (fun p => Option.map Real.exp (Option.map (fun y => y - p.2) p.1)) := by
      rw [temp_of, List.getD_eq_getElem _ _ (by simpa [temp_of] using hiT)]
      simp
    rw [ht0D] at hgi
    rw [hgi] at ho
    obtain ⟨p, _, rfl⟩ := List.mem_map.mp ho
    rcases p with ⟨p1, p2⟩
    cases p1 with
    | none => simp at hoNN
    | some v => simpa using Real.exp_pos (v - p2)
  have htL2 : (t0.map (fun o => o.getD 0)).length = s.size.prod := by
    rw [ht0D] at htL
    simpa using htL
  have htne : t0.map (fun o => o.getD 0) ≠ [] := by
    intro hcon
    rw [hcon] at htL2
    simp at htL2
    omega
  have hsum : 0 < (t0.map (fun o => o.getD 0)).sum :=
    List.sum_pos _ hpos htne
  -- the mean computation
  set t1 : List ℝ := t0.map (fun o => o.getD 0) with ht1
  set z : ℝ := s.dens.getD i 0 / (t1.sum / (s.size.prod : ℝ)) with hz
  have hcandlen : (t1.map (fun x => x * z)).length = (s.r.getD i []).length := by
    simp only [List.length_map]
    rw [hrL]
    exact htL2
  rw [listMean, sum_zip_mix alpha _ _ hcandlen]
  have hrL2 : (s.r[i]?.getD []).length = s.size.prod := by
    simpa [List.getD_eq_getElem?_getD] using hrL
  have hmixlen : (((t1.map (fun x => x * z)).zip (s.r.getD i [])).map
      (fun p => alpha * p.1 + (1 - alpha) * p.2)).length = s.size.prod := by
    simp only [List.length_map, List.length_zip, hcandlen]
    simp [hrL2]
  rw [hmixlen]
  have hcandsum : (t1.map (fun x => x * z)).sum = t1.sum * z :=
    List.sum_map_mul_right t1 (fun x => x) z ▸ by simp [List.sum_map_mul_right]
  rw [hcandsum]
  have hVne : ((s.size.prod : ℕ) : ℝ) ≠ 0 := by
    exact_mod_cast hV.ne.symm
  have holdsum : (s.r.getD i []).sum = s.dens.getD i 0 * (s.size.prod : ℝ) := by
    rw [listMean, hrL, div_eq_iff hVne] at hmean
    exact hmean
  have hsumne : t1.sum ≠ 0 := ne_of_gt hsum
  have hzz : t1.sum * z = s.dens.getD i 0 * ((s.size.prod : ℕ) : ℝ) := by
    rw [hz, div_div_eq_mul_div, mul_comm, div_mul_cancel₀ _ hsumne]
  rw [holdsum, hzz]
  have hsplit : alpha * (s.dens.getD i 0 * ((s.size.prod : ℕ) : ℝ)) +
      (1 - alpha) * (s.dens.getD i 0 * ((s.size.prod : ℕ) : ℝ)) =
      s.dens.getD i 0 * ((s.size.prod : ℕ) : ℝ) := by ring
  rw [hsplit, mul_div_assoc, div_self hVne, mul_one]

/-- C2: counterexample — in the canonical ensemble one Picard step does
not in general restore the mean of `_r[i]` to `_dens[i]`: starting from
the field `[1/4, 3/4]` (mean `1/2`) with `_dens = [1/4]` and
`alpha = 1/2`, the updated field has mean `3/8 ≠ 1/4`; the step yields
`alpha*dens + (1-alpha)*mean(old)`, not `dens`. -/
theorem c2_counterexample_canonical_mean_drifts :
    (mkState [2] [false] [0] [1/4] [[0, 0]] [[1/4, 3/4]] [0] 0).mu_fix.getD 0 false
      = false ∧
    listMean ((make_picard_update zero2F (1/2)
        (mkState [2] [false] [0] [1/4] [[0, 0]] [[1/4, 3/4]] [0] 0)).1.r.getD 0 [])
      ≠ (mkState [2] [false] [0] [1/4] [[0, 0]] [[1/4, 3/4]] [0] 0).dens.getD 0 0 := by
  constructor
  · simp [mkState]
  · simp only [make_picard_update, temp_of, speciesLoop, speciesStep, zero2F,
      mkState, listMean, List.range_succ]
    norm_num [Real.exp_zero, listMean]

/-- C2: witness — the amended theorem applied at a one-site single-species
canonical state whose field `[1/2]` already has mean `1/2 = _dens[0]`. -/
theorem c2_witness :
    (make_picard_update zeroF (1/2)
        (mkState [1] [false] [0] [1/2] [[0]] [[1/2]] [0] 0)).2 ≠ none ∧
    listMean ((make_picard_update zeroF (1/2)
        (mkState [1] [false] [0] [1/2] [[0]] [[1/2]] [0] 0)).1.r.getD 0 [])
      = (mkState [1] [false] [0] [1/2] [[0]] [[1/2]] [0] 0).dens.getD 0 0 :=
  c2_amended_canonical_mean zeroF (1/2)
    (mkState [1] [false] [0] [1/2] [[0]] [[1/2]] [0] 0) 0
    (by simp [mkState]) (by simp [mkState]) (by norm_num)
    (by simp [temp_of, zeroF, mkState]) (by simp [mkState])
    (by simp [temp_of, zeroF, mkState]) (by simp [mkState])
    (by simp [listMean, mkState])

/-! ### C3: the tilted roll is inverted by the opposite tilted roll -/

/-- The value of a rolled index, as an integer residue. -/
lemma idxRoll_val {n : ℕ} (s : ℤ) (i : Fin n) :
    (((idxRoll s i : Fin n) : ℕ) : ℤ) = (((i : ℕ) : ℤ) - s) % (n : ℤ) := by
  have hn : (0 : ℤ) < (n : ℤ) := by exact_mod_cast i.pos
  have hr0 : 0 ≤ s % (n : ℤ) := Int.emod_nonneg s (ne_of_gt hn)
  have hr1 : s % (n : ℤ) < (n : ℤ) := Int.emod_lt_of_pos s hn
  have h0 : (0 : ℤ) ≤ ((i : ℕ) : ℤ) := Int.ofNat_nonneg _
  have h1 : 0 ≤ ((i : ℕ) : ℤ) - s % (n : ℤ) + (n : ℤ) := by linarith
  simp only [idxRoll]
  push_cast
  rw [Int.toNat_of_nonneg h1]
  rw [show ((i : ℕ) : ℤ) - s % (n : ℤ) + (n : ℤ)
      = ((i : ℕ) : ℤ) - s % (n : ℤ) + (n : ℤ) * 1 from by ring]
  rw [Int.add_mul_emod_self_left]
  rw [Int.sub_emod, Int.emod_emod_of_dvd s dvd_rfl, ← Int.sub_emod]

/-- Composing two rolls along the same axis adds the steps. -/
lemma idxRoll_comp {n : ℕ} (s t : ℤ) (i : Fin n) :
    idxRoll s (idxRoll t i) = idxRoll (t + s) i := by
  apply Fin.ext
  have h1 := idxRoll_val s (idxRoll t i)
  rw [idxRoll_val t i] at h1
  have h3 := idxRoll_val (t + s) i
  have key : (((idxRoll s (idxRoll t i) : Fin n) : ℕ) : ℤ)
      = (((idxRoll (t + s) i : Fin n) : ℕ) : ℤ) := by
    rw [h1, h3]
    rw [Int.sub_emod, Int.emod_emod_of_dvd _ dvd_rfl, ← Int.sub_emod]
    congr 1
    ring
  exact_mod_cast key

/-- Rolling by zero steps is the identity on indices. -/
lemma idxRoll_zero {n : ℕ} (i : Fin n) : idxRoll 0 i = i := by
  apply Fin.ext
  have h := idxRoll_val 0 i
  rw [sub_zero] at h
  have key : (((idxRoll 0 i : Fin n) : ℕ) : ℤ) = ((i : ℕ) : ℤ) := by
    rw [h]
    exact Int.emod_eq_of_lt (Int.ofNat_nonneg _) (by exact_mod_cast i.isLt)
  exact_mod_cast key

/-- Rolling by a multiple of the axis length is the identity. -/
lemma idxRoll_dvd {n : ℕ} (s : ℤ) (i : Fin n) (h : (n : ℤ) ∣ s) :
    idxRoll s i = i := by
  apply Fin.ext
  have h1 := idxRoll_val s i
  have key : (((idxRoll s i : Fin n) : ℕ) : ℤ) = ((i : ℕ) : ℤ) := by
    rw [h1, Int.sub_emod, Int.emod_eq_zero_of_dvd h, sub_zero,
      Int.emod_emod_of_dvd _ dvd_rfl]
    exact Int.emod_eq_of_lt (Int.ofNat_nonneg _) (by exact_mod_cast i.isLt)
  exact_mod_cast key

/-- The padding slab is exactly the set of indices whose roll wraps
around the axis. -/
lemma inPad_iff (n : ℕ) (s i : ℤ) (hn : (0 : ℤ) < (n : ℤ))
    (h0 : 0 ≤ i) (h1 : i < (n : ℤ)) :
    inPad s n i = true ↔ (i + s) % (n : ℤ) ≠ i + s := by
  unfold inPad
  by_cases hs : 0 < s
  · rw [if_pos hs]
    simp only [decide_eq_true_eq]
    constructor
    · intro hle hcon
      have hlt : (i + s) % (n : ℤ) < (n : ℤ) := Int.emod_lt_of_pos _ hn
      rw [hcon] at hlt
      linarith
    · intro hne2
      by_contra hcon
      push_neg at hcon
      exact hne2 (Int.emod_eq_of_lt (by linarith) (by linarith))
  · rw [if_neg hs]
    simp only [decide_eq_true_eq]
    push_neg at hs
    constructor
    · intro hlt hcon
      have hnn : 0 ≤ (i + s) % (n : ℤ) := Int.emod_nonneg _ (ne_of_gt hn)
      rw [hcon] at hnn
      linarith
    · intro hne2
      by_contra hcon
      push_neg at hcon
      exact hne2 (Int.emod_eq_of_lt (by linarith) (by linarith))

/-- Slab equivalence: an index lies in the forward-roll slab iff its
backward-rolled image lies in the backward-roll slab. -/
lemma inPad_neg_roll {n : ℕ} (s : ℤ) (i : Fin n) :
    inPad (-s) n (((idxRoll (-s) i : Fin n) : ℕ) : ℤ)
      = inPad s n (((i : ℕ) : ℤ)) := by
  have hn : (0 : ℤ) < (n : ℤ) := by exact_mod_cast i.pos
  have hi0 : (0 : ℤ) ≤ ((i : ℕ) : ℤ) := Int.ofNat_nonneg _
  have hi1 : ((i : ℕ) : ℤ) < (n : ℤ) := by exact_mod_cast i.isLt
  have hj0 : (0 : ℤ) ≤ (((idxRoll (-s) i : Fin n) : ℕ) : ℤ) := Int.ofNat_nonneg _
  have hj1 : (((idxRoll (-s) i : Fin n) : ℕ) : ℤ) < (n : ℤ) := by
    exact_mod_cast (idxRoll (-s) i).isLt
  have hj : (((idxRoll (-s) i : Fin n) : ℕ) : ℤ) = (((i : ℕ) : ℤ) + s) % (n : ℤ) := by
    rw [idxRoll_val, sub_neg_eq_add]
  have hiff1 := inPad_iff n (-s) _ hn hj0 hj1
  have hiff2 := inPad_iff n s _ hn hi0 hi1
  have hsub : ((((i : ℕ) : ℤ) + s) % (n : ℤ) + -s) % (n : ℤ) = ((i : ℕ) : ℤ) := by
    conv_lhs => rw [Int.add_emod]
    rw [Int.emod_emod_of_dvd _ dvd_rfl, ← Int.add_emod]
    rw [show ((i : ℕ) : ℤ) + s + -s = ((i : ℕ) : ℤ) from by ring]
    exact Int.emod_eq_of_lt hi0 hi1
  rw [hj] at hiff1
  rw [hsub] at hiff1
  have hfin : (inPad (-s) n ((((i : ℕ) : ℤ) + s) % (n : ℤ)) = true)
      ↔ (inPad s n (((i : ℕ) : ℤ)) = true) := by
    rw [hiff1, hiff2]
    constructor
    · intro h hcon
      apply h
      rw [hcon]
      ring
    · intro h hcon
      apply h
      have : (((i : ℕ) : ℤ) + s) % (n : ℤ) = ((i : ℕ) : ℤ) + s := by linarith
      exact this
  rw [hj]
  cases hA : inPad (-s) n ((((i : ℕ) : ℤ) + s) % (n : ℤ)) <;>
    cases hB : inPad s n (((i : ℕ) : ℤ))
  · rfl
  · exact (Bool.false_ne_true (hA ▸ hfin.mpr hB)).elim
  · exact (Bool.false_ne_true (hB ▸ hfin.mp hA)).elim
  · rfl

/-- Pointwise form of `tilted_roll_3d`. -/
lemma tilted_roll_3d_apply {α : Type} {L : Fin 3 → ℕ} (a : Arr α L) (s : ℤ)
    (ax : Fin 3) (sh : ℤ) (shax : Fin 3) (v : (i : Fin 3) → Fin (L i)) :
    tilted_roll_3d a s ax sh shax v =
      if inPad s (L ax)
          (((Function.update v ax (idxRoll s (v ax)) ax : Fin (L ax)) : ℕ) : ℤ) then
        a (Function.update (Function.update v ax (idxRoll s (v ax))) shax
            (idxRoll sh (Function.update v ax (idxRoll s (v ax)) shax)))
      else a (Function.update v ax (idxRoll s (v ax))) := rfl

/-- A plain roll is inverted by the opposite roll (3d). -/
lemma roll3_inv {α : Type} {L : Fin 3 → ℕ} (s : ℤ) (ax : Fin 3) (a : Arr α L) :
    roll3 (-s) ax (roll3 s ax a) = a := by
  funext v
  show a (Function.update (Function.update v ax (idxRoll (-s) (v ax))) ax
      (idxRoll s (Function.update v ax (idxRoll (-s) (v ax)) ax))) = a v
  rw [Function.update_same, Function.update_idem, idxRoll_comp,
    neg_add_cancel, idxRoll_zero, Function.update_eq_self]

/-- A plain roll is inverted by the opposite roll (2d). -/
lemma roll2_inv {α : Type} {M : Fin 2 → ℕ} (s : ℤ) (ax : Fin 2) (a : Arr2 α M) :
    roll2 (-s) ax (roll2 s ax a) = a := by
  funext v
  show a (Function.update (Function.update v ax (idxRoll (-s) (v ax))) ax
      (idxRoll s (Function.update v ax (idxRoll (-s) (v ax)) ax))) = a v
  rw [Function.update_same, Function.update_idem, idxRoll_comp,
    neg_add_cancel, idxRoll_zero, Function.update_eq_self]

set_option maxRecDepth 4000 in
/-- The tilted roll is inverted by the tilted roll with opposite steps,
provided twice the shear is a multiple of the shift-axis extent. -/
lemma tilted_roll_3d_inv {α : Type} {L : Fin 3 → ℕ} (a : Arr α L) (s sh : ℤ)
    (ax shax : Fin 3) (hne : shax ≠ ax)
    (hdvd : ((L shax : ℕ) : ℤ) ∣ sh + sh) :
    tilted_roll_3d (tilted_roll_3d a s ax sh shax) (-s) ax sh shax = a := by
  funext v
  have hjs : idxRoll s (idxRoll (-s) (v ax)) = v ax := by
    rw [idxRoll_comp, neg_add_cancel, idxRoll_zero]
  have hshsh : idxRoll sh (idxRoll sh (v shax)) = v shax := by
    rw [idxRoll_comp]
    exact idxRoll_dvd _ _ hdvd
  have hslab := inPad_neg_roll s (v ax)
  rw [tilted_roll_3d_apply, tilted_roll_3d_apply, tilted_roll_3d_apply]
  simp only [Function.update_same, Function.update_noteq hne,
    Function.update_noteq (Ne.symm hne), hjs, hshsh]
  rw [hslab]
  by_cases h : inPad s (L ax) (((v ax : ℕ) : ℤ)) = true
  · rw [if_pos h, if_pos h]
    simp only [Function.update_comm hne, Function.update_idem,
      Function.update_eq_self]
  · rw [if_neg h, if_neg h]
    simp only [Function.update_idem, Function.update_eq_self]

/-- On the doubled-axis shape the maximal extent is the doubled one. -/
lemma maxSize3_shape (n : ℕ) (hn : 1 ≤ n) (d : Fin 3) :
    maxSize3 (fun i => if i = d then 2 * n else n) = 2 * n := by
  fin_cases d <;> simp [maxSize3] <;> omega

/-- On the doubled-axis shape the first maximal axis is the doubled one. -/
lemma argmaxIdx3_shape (n : ℕ) (hn : 1 ≤ n) (d : Fin 3) :
    argmaxIdx3 (fun i => if i = d then 2 * n else n) = d := by
  have hm := maxSize3_shape n hn d
  unfold argmaxIdx3
  rw [hm]
  fin_cases d
  · simp
  · simp only [Fin.isValue]
    rw [if_neg (by simp; omega), if_pos (by simp)]
    decide
  · simp only [Fin.isValue]
    rw [if_neg (by simp; omega), if_neg (by simp; omega)]
    decide

/-- On the doubled-axis 2d shape the maximal extent is the doubled one. -/
lemma maxSize2_shape (n : ℕ) (hn : 1 ≤ n) (d : Fin 2) :
    maxSize2 (fun i => if i = d then 2 * n else n) = 2 * n := by
  fin_cases d <;> simp [maxSize2] <;> omega

/-- On the doubled-axis 2d shape the first maximal axis is the doubled
one. -/
lemma argmaxIdx2_shape (n : ℕ) (hn : 1 ≤ n) (d : Fin 2) :
    argmaxIdx2 (fun i => if i = d then 2 * n else n) = d := by
  have hm := maxSize2_shape n hn d
  unfold argmaxIdx2
  rw [hm]
  fin_cases d
  · simp
  · simp only [Fin.isValue]
    rw [if_neg (by simp; omega)]
    decide

/-- The padded 3d shape restricted to the two trailing axes is the 2d
shape. -/
lemma pad3_succ {M : Fin 2 → ℕ} (j : Fin 2) : pad3 M j.succ = M j := by
  fin_cases j <;> rfl

/-- Dropping the padding coordinate after adding it is the identity. -/
lemma unpadIdx_padIdx {M : Fin 2 → ℕ} (v : (i : Fin 2) → Fin (M i)) :
    unpadIdx (padIdx v) = v := by
  funext j
  fin_cases j <;> rfl

/-- Adding the padding coordinate after dropping it is the identity: the
leading axis has extent 1, so its coordinate is forced. -/
lemma padIdx_unpadIdx {M : Fin 2 → ℕ} (w : (i : Fin 3) → Fin (pad3 M i)) :
    padIdx (unpadIdx w) = w := by
  funext i
  rcases i with ⟨iv, hiv⟩
  interval_cases iv
  · apply Fin.ext
    have h1 := (w ⟨0, by omega⟩).isLt
    simp only [pad3] at h1
    show 0 = _
    omega
  · rfl
  · rfl

/-- Wrapping a 2d array commutes with the tilted roll. -/
lemma arr2to3_tilted {α : Type} {M : Fin 2 → ℕ} (a : Arr2 α M) (s sh : ℤ)
    (rax shax : Fin 2) :
    arr2to3 (tilted_roll_2d a s rax sh shax)
      = tilted_roll_3d (arr2to3 a) s rax.succ sh shax.succ := by
  funext w
  show tilted_roll_3d (arr2to3 a) s rax.succ sh shax.succ (padIdx (unpadIdx w)) = _
  rw [padIdx_unpadIdx]

/-- The 2d tilted roll is inverted by the 2d tilted roll with opposite
steps. -/
lemma tilted_roll_2d_inv {α : Type} {M : Fin 2 → ℕ} (a : Arr2 α M) (s sh : ℤ)
    (rax shax : Fin 2) (hne : shax ≠ rax)
    (hdvd : ((M shax : ℕ) : ℤ) ∣ sh + sh) :
    tilted_roll_2d (tilted_roll_2d a s rax sh shax) (-s) rax sh shax = a := by
  funext v
  show tilted_roll_3d (arr2to3 (tilted_roll_2d a s rax sh shax)) (-s) rax.succ sh
      shax.succ (padIdx v) = a v
  rw [arr2to3_tilted]
  have hne3 : shax.succ ≠ rax.succ := fun h => hne (Fin.succ_injective _ h)
  have hdvd3 : ((pad3 M shax.succ : ℕ) : ℤ) ∣ sh + sh := by
    rw [pad3_succ]
    exact hdvd
  rw [tilted_roll_3d_inv (arr2to3 a) s sh rax.succ shax.succ hne3 hdvd3]
  show a (unpadIdx (padIdx v)) = a v
  rw [unpadIdx_padIdx]

/-- Round trip of `_boundary_roll` on a 3d doubled-axis shape. -/
lemma boundary_roll3_inv (α : Type) (n : ℕ) (hn : 1 ≤ n) (d : Fin 3)
    (bc : BoundCond) (hbc : bc ≠ BoundCond.periodic)
    (r : Arr α (fun i => if i = d then 2 * n else n)) (s : ℤ) (ax : Fin 3) :
    boundary_roll3 bc (fun i => if i = d then 2 * n else n)
      (boundary_roll3 bc (fun i => if i = d then 2 * n else n) r s ax) (-s) ax
      = r := by
  have harg := argmaxIdx3_shape n hn d
  have hmax := maxSize3_shape n hn d
  have hdvd : (((if d = d then 2 * n else n : ℕ)) : ℤ) ∣
      ((maxSize3 (fun i : Fin 3 => if i = d then 2 * n else n) / 2 : ℕ) : ℤ)
      + ((maxSize3 (fun i : Fin 3 => if i = d then 2 * n else n) / 2 : ℕ) : ℤ) := by
    rw [hmax, if_pos rfl]
    have h2 : 2 * n / 2 = n := by omega
    rw [h2]
    exact ⟨1, by push_cast; ring⟩
  cases bc with
  | periodic => exact absurd rfl hbc
  | if11 =>
    simp only [boundary_roll3]
    rw [harg]
    by_cases hd : d = ax
    · rw [if_pos hd, if_pos hd]
      exact roll3_inv s ax r
    · rw [if_neg hd, if_neg hd]
      exact tilted_roll_3d_inv r s _ ax d hd hdvd
  | if111 =>
    simp only [boundary_roll3]
    rw [harg]
    by_cases hd : d = ax
    · rw [if_pos hd, if_pos hd]
      exact roll3_inv s ax r
    · rw [if_neg hd, if_neg hd]
      exact tilted_roll_3d_inv r s _ ax d hd hdvd
  | if110 =>
    simp only [boundary_roll3]
    rw [harg]
    by_cases hd : d = ax
    · rw [if_pos hd, if_pos hd]
      exact roll3_inv s ax r
    · rw [if_neg hd, if_neg hd]
      by_cases h3 : ((d : ℕ) + 1) % 3 = (ax : ℕ)
      · rw [if_pos h3, if_pos h3]
        exact roll3_inv s ax r
      · rw [if_neg h3, if_neg h3]
        exact tilted_roll_3d_inv r s _ ax d hd hdvd

/-- Round trip of `_boundary_roll` on a 2d doubled-axis shape. -/
lemma boundary_roll2_inv (α : Type) (n : ℕ) (hn : 1 ≤ n) (d : Fin 2)
    (bc : BoundCond) (hbc : bc ≠ BoundCond.periodic)
    (r : Arr2 α (fun i => if i = d then 2 * n else n)) (s : ℤ) (ax : Fin 2) :
    boundary_roll2 bc (fun i => if i = d then 2 * n else n)
      (boundary_roll2 bc (fun i => if i = d then 2 * n else n) r s ax) (-s) ax
      = r := by
  have harg := argmaxIdx2_shape n hn d
  have hmax := maxSize2_shape n hn d
  have hdvd : (((if d = d then 2 * n else n : ℕ)) : ℤ) ∣
      ((maxSize2 (fun i : Fin 2 => if i = d then 2 * n else n) / 2 : ℕ) : ℤ)
      + ((maxSize2 (fun i : Fin 2 => if i = d then 2 * n else n) / 2 : ℕ) : ℤ) := by
    rw [hmax, if_pos rfl]
    have h2 : 2 * n / 2 = n := by omega
    rw [h2]
    exact ⟨1, by push_cast; ring⟩
  cases bc with
  | periodic => exact absurd rfl hbc
  | if11 =>
    simp only [boundary_roll2]
    rw [harg]
    by_cases hd : d = ax
    · rw [if_pos hd, if_pos hd]
      exact roll2_inv s ax r
    · rw [if_neg hd, if_neg hd]
      exact tilted_roll_2d_inv r s _ ax d hd hdvd
  | if111 =>
    simp only [boundary_roll2]
    rw [harg]
    by_cases hd : d = ax
    · rw [if_pos hd, if_pos hd]
      exact roll2_inv s ax r
    · rw [if_neg hd, if_neg hd]
      exact tilted_roll_2d_inv r s _ ax d hd hdvd
  | if110 =>
    simp only [boundary_roll2]
    rw [harg]
    by_cases hd : d = ax
    · rw [if_pos hd, if_pos hd]
      exact roll2_inv s ax r
    · rw [if_neg hd, if_neg hd]
      by_cases h3 : ((d : ℕ) + 1) % 3 = (ax : ℕ)
      · rw [if_pos h3, if_pos h3]
        exact roll2_inv s ax r
      · rw [if_neg h3, if_neg h3]
        exact tilted_roll_2d_inv r s _ ax d hd hdvd

/-- C3: for each tilted boundary mode ('11_if', '110_if', '111_if'), on a
shape in which exactly one axis (axis `d`) has extent `2*n`, twice the
extent `n` of each other axis, `_boundary_roll(_boundary_roll(r, steps,
axis), -steps, axis) = r` exactly, for every field `r`, every integer
`steps` and every axis — in 3d and in 2d. -/
theorem c3_tilted_roll_roundtrip :
    (∀ (α : Type) (n : ℕ), 1 ≤ n → ∀ (d : Fin 3) (bc : BoundCond),
      bc ≠ BoundCond.periodic →
      ∀ (r : Arr α (fun i => if i = d then 2 * n else n)) (s : ℤ) (ax : Fin 3),
        boundary_roll3 bc (fun i => if i = d then 2 * n else n)
          (boundary_roll3 bc (fun i => if i = d then 2 * n else n) r s ax)
          (-s) ax = r) ∧
    (∀ (α : Type) (n : ℕ), 1 ≤ n → ∀ (d : Fin 2) (bc : BoundCond),
      bc ≠ BoundCond.periodic →
      ∀ (r : Arr2 α (fun i => if i = d then 2 * n else n)) (s : ℤ) (ax : Fin 2),
        boundary_roll2 bc (fun i => if i = d then 2 * n else n)
          (boundary_roll2 bc (fun i => if i = d then 2 * n else n) r s ax)
          (-s) ax = r) :=
  ⟨fun α n hn d bc hbc r s ax => boundary_roll3_inv α n hn d bc hbc r s ax,
   fun α n hn d bc hbc r s ax => boundary_roll2_inv α n hn d bc hbc r s ax⟩

/-- C3: witness — the round trip instantiated on the concrete 3d shape
(2, 1, 1) with mode '11_if', steps 1, axis 1. -/
theorem c3_witness :
    boundary_roll3 BoundCond.if11 (fun i => if i = (0 : Fin 3) then 2 * 1 else 1)
      (boundary_roll3 BoundCond.if11
        (fun i => if i = (0 : Fin 3) then 2 * 1 else 1)
        (fun _ => true) 1 1) (-1) 1 = (fun _ => true) :=
  c3_tilted_roll_roundtrip.1 Bool 1 (by norm_num) 0 BoundCond.if11
    (by decide) (fun _ => true) 1 1

/-- C9: `_boundary_roll` is pure: for every boundary condition, input
array, integer steps and axis, the caller's buffer after the call is
unchanged (component 1 of the mutation-tracking model equals the input)
and the returned value is exactly the functional roll (component 2 equals
`boundary_roll`), in 3d and in 2d. -/
theorem c9_boundary_roll_pure :
    (∀ (α : Type) (bc : BoundCond) (L : Fin 3 → ℕ) (r : Arr α L) (steps : ℤ)
        (axis : Fin 3),
      (boundary_roll3_mem bc L r steps axis).1 = r ∧
      (boundary_roll3_mem bc L r steps axis).2
        = boundary_roll3 bc L r steps axis) ∧
    (∀ (α : Type) (bc : BoundCond) (M : Fin 2 → ℕ) (r : Arr2 α M) (steps : ℤ)
        (axis : Fin 2),
      (boundary_roll2_mem bc M r steps axis).1 = r ∧
      (boundary_roll2_mem bc M r steps axis).2
        = boundary_roll2 bc M r steps axis) := by
  constructor <;> intro α bc S r steps axis <;> cases bc <;> constructor <;>
    simp only [boundary_roll3_mem, boundary_roll3, boundary_roll2_mem,
      boundary_roll2] <;>
    (try split) <;> (try split) <;> rfl
